import Mathlib

/-!
# F007TH receiver (`src/main.cpp`): decode, assemble, validate

A shallow embedding of the decoding path of the sketch: `Checksum`, `add`
and `lecture`.  Bytes (`byte`, `uint8_t`) are natural numbers reduced
modulo 256 wherever the C++ code can overflow; the global variables of the
sketch are the fields of `State`; everything the sketch prints on the serial
line or publishes over MQTT is recorded, in order, in the field `out`.
-/

set_option maxRecDepth 100000

namespace F007th

/-! ## Checksum (main.cpp 194-227) -/

/-- One pass of "Rotate mask right" (main.cpp 211-216) on the `uint8_t` mask. -/
def rotateMask (mask : Nat) : Nat :=
  let bit := mask &&& 1
  let mask := ((mask >>> 1) ||| (mask <<< 7)) % 256
  if bit ≠ 0 then mask ^^^ 0x18 else mask

/-- Body of the inner `for (bitCnt = 7; bitCnt >= 0; bitCnt--)` loop
(main.cpp 207-224), on the triple `(mask, checksum, data)`.  The loop counter
is not read by the body. -/
def checksumBit (st : Nat × Nat × Nat) (_bitCnt : Nat) : Nat × Nat × Nat :=
  let mask := rotateMask st.1
  let checksum := if st.2.2 &&& 0x80 ≠ 0 then st.2.1 ^^^ mask else st.2.1
  let data := (st.2.2 <<< 1) % 256
  (mask, checksum, data)

/-- Body of the outer `for (byteCnt = 0; byteCnt < length; byteCnt++)` loop
(main.cpp 202-225), on the pair `(mask, checksum)`. -/
def checksumByte (buff : List Nat) (st : Nat × Nat) (byteCnt : Nat) : Nat × Nat :=
  let data := buff.getD byteCnt 0
  let r := [7, 6, 5, 4, 3, 2, 1, 0].foldl checksumBit (st.1, st.2, data)
  (r.1, r.2.1)

/-- `uint8_t Checksum(int length, uint8_t *buff)` (main.cpp 194-227).  The
length is a natural number: a negative `length` runs the loop as often as 0
does. -/
def Checksum (length : Nat) (buff : List Nat) : Nat :=
  ((List.range length).foldl (checksumByte buff) (0x7C, 0x64)).2

/-! ## Global state and output -/

/-- What the sketch emits while decoding: lines on the serial monitor and
MQTT publications.  Temperatures are carried as the raw sensor value
`Newtemp`; the floating point conversion to Celsius is not part of the
model. -/
inductive Event where
  | serialBattery (battery : Nat)
  | serialReading (bytes : List Nat) (stnId : Nat) (newtemp : Nat) (newhum : Nat)
      (battery : Nat)
  | publishTemperature (stnId : Nat) (newtemp : Nat)
  | publishHumidity (stnId : Nat) (newhum : Nat)
  | publishLowBattery (stnId : Nat) (battery : Nat)
  | serialFirstZero
  deriving DecidableEq, Repr

/-- Is the event an MQTT publication? -/
def Event.isPublish : Event → Bool
  | .publishTemperature _ _ => true
  | .publishHumidity _ _ => true
  | .publishLowBattery _ _ => true
  | _ => false

/-- `#define MAX_BYTES 7` and `byte maxBytes = MAX_BYTES` (never assigned). -/
def maxBytes : Nat := 7

/-- `byte headerBits = 10` (never assigned). -/
def headerBits : Nat := 10

/-- The global variables of the sketch read or written by `add` and
`lecture` (main.cpp 129-158), and the output produced so far. -/
structure State where
  polarity : Nat
  tempBit : Nat
  firstZero : Bool
  noErrors : Bool
  headerHits : Nat
  dataByte : Nat
  nosBits : Nat
  nosBytes : Nat
  manchester : List Nat
  dataType : Nat
  Newtemp : Nat
  Newhum : Nat
  ChanTemp : List Nat
  ChanHum : List Nat
  Battery : Nat
  out : List Event
  deriving DecidableEq, Repr

/-- The values the globals have when the sketch starts (main.cpp 129-158);
`eraseManchester` has set `manchester[j] = j` for `j < 4`. -/
def State.boot : State where
  polarity := 1
  tempBit := 1
  firstZero := false
  noErrors := true
  headerHits := 0
  dataByte := 0xFF
  nosBits := 6
  nosBytes := 0
  manchester := [0, 1, 2, 3, 0, 0, 0]
  dataType := 0
  Newtemp := 0
  Newhum := 0
  ChanTemp := List.replicate 9 0
  ChanHum := List.replicate 9 0
  Battery := 0
  out := []

/-! ## add (main.cpp 233-333) -/

/-- Channel: `((manchester[3] & B01110000) / 16) + 1` (main.cpp 249). -/
def stnIdOf (b : List Nat) : Nat := ((b.getD 3 0 &&& 0x70) / 16) + 1

/-- Raw temperature: `(manchester[3] & B00000111) * 256 + manchester[4]`
(main.cpp 255). -/
def newtempOf (b : List Nat) : Nat := (b.getD 3 0 &&& 0x07) * 256 + b.getD 4 0

/-- Humidity: `manchester[5]` (main.cpp 258). -/
def newhumOf (b : List Nat) : Nat := b.getD 5 0

/-- Battery flag: `manchester[3] >> 7` (main.cpp 260). -/
def batteryOf (b : List Nat) : Nat := b.getD 3 0 >>> 7

/-- Body of `if (nosBytes == maxBytes)` (main.cpp 244-332).  The locals and
globals are assigned in the order of the source; `Serial.println(Battery)`
(line 262) comes before the tests.  The serial lines of 273-298 are one
event; the broker session (`connect`) and `delay(5000)` leave no trace in
the state. -/
def complete (s : State) : State :=
  let b := s.manchester
  let stnId := stnIdOf b
  let s := { s with dataByte := 0xFF, dataType := b.getD 1 0, Newtemp := newtempOf b,
                    Newhum := newhumOf b, Battery := batteryOf b }
  let s := { s with out := s.out ++ [Event.serialBattery s.Battery] }
  if Checksum (maxBytes - 2) (b.drop 1) == b.getD (maxBytes - 1) 0 then
    if s.dataType == 0x45 && s.Newhum ≤ 100 then
      { s with
        ChanTemp := s.ChanTemp.set stnId s.Newtemp
        ChanHum := s.ChanHum.set stnId s.Newhum
        out := s.out ++
          [Event.serialReading b stnId s.Newtemp s.Newhum s.Battery,
           Event.publishTemperature stnId s.Newtemp,
           Event.publishHumidity stnId s.Newhum,
           Event.publishLowBattery stnId s.Battery] }
    else s
  else s

/-- `void add(byte bitData)` (main.cpp 233-333). -/
def add (s : State) (bitData : Nat) : State :=
  let s := { s with dataByte := ((s.dataByte <<< 1) ||| bitData) % 256 }
  let s := { s with nosBits := (s.nosBits + 1) % 256 }
  let s :=
    if s.nosBits == 8 then
      { s with nosBits := 0
               manchester := s.manchester.set s.nosBytes s.dataByte
               nosBytes := (s.nosBytes + 1) % 256 }
    else s
  if s.nosBytes == maxBytes then complete s else s

/-! ## lecture (main.cpp 343-414) -/

/-- The two reads of the line made in one pass of the loop once the
spin-wait has found the expected level: `quarter` after `sDelay`
(main.cpp 361) and `threeQuarter` after the further `lDelay` (main.cpp 369). -/
structure Sample where
  quarter : Nat
  threeQuarter : Nat
  deriving DecidableEq, Repr

/-- The assignments at the top of `lecture` (main.cpp 344-349). -/
def lectureInit (s : State) : State :=
  { s with tempBit := s.polarity, noErrors := true, firstZero := false,
           headerHits := 0, nosBits := 6, nosBytes := 0 }

/-- Lines 369-374: the expected level after the three-quarter read. -/
def nextTempBit (s : State) (x : Sample) : Nat :=
  if x.threeQuarter == s.tempBit then s.tempBit ^^^ 1 else s.tempBit

/-- Line 377: `bitState = tempBit ^ polarity`, with the new `tempBit`. -/
def bitStateOf (s : State) (x : Sample) : Nat := nextTempBit s x ^^^ s.polarity

/-- Lines 378-411: what is done with a decoded bit. -/
def processBit (s : State) (bitState : Nat) : State :=
  if bitState == 1 then
    if !s.firstZero then { s with headerHits := (s.headerHits + 1) % 256 }
    else add s bitState
  else
    if s.headerHits < headerBits then { s with noErrors := false }
    else
      if !s.firstZero then
        let s := { s with firstZero := true }
        let s := add s bitState
        { s with out := s.out ++ [Event.serialFirstZero] }
      else add s bitState

/-- One pass of the body of `while (noErrors && (nosBytes < maxBytes))`
(main.cpp 351-413), after the spin-wait of lines 353-357 has ended. -/
def iteration (s : State) (x : Sample) : State :=
  if x.quarter != s.tempBit then { s with noErrors := false }
  else
    let s := { s with tempBit := nextTempBit s x }
    processBit s (s.tempBit ^^^ s.polarity)

/-- The loop guard `noErrors && (nosBytes < maxBytes)` (main.cpp 350). -/
def loopGuard (s : State) : Bool := s.noErrors && decide (s.nosBytes < maxBytes)

/-- The `while` loop of `lecture`, driven by the samples of its passes. -/
def run : State → List Sample → State
  | s, [] => s
  | s, x :: xs => if loopGuard s then run (iteration s x) xs else s

/-- `void lecture()` (main.cpp 343-414) on the samples `xs` of its passes;
when the samples are used up the state reached so far is returned. -/
def lecture (s : State) (xs : List Sample) : State := run (lectureInit s) xs

/-- The bits decoded by the passes of the loop started in `s`, in order. -/
def decodedBits : State → List Sample → List Nat
  | _, [] => []
  | s, x :: xs =>
    if loopGuard s && x.quarter == s.tempBit then
      bitStateOf s x :: decodedBits (iteration s x) xs
    else []

/-! ## The digest as the specification words it -/

/-- The step of the specification: rotate the 8-bit mask right by one
position and, when the bit rotated out was 1, XOR `0x18` into it. -/
def specStep (m : Nat) : Nat :=
  let rotated := m / 2 + (m % 2) * 128
  if m % 2 = 1 then rotated ^^^ 0x18 else rotated

/-- The masks of the specification: `m_0 = 0x7C`, `m_{i+1} = step m_i`. -/
def specMask : Nat → Nat
  | 0 => 0x7C
  | i + 1 => specStep (specMask i)

/-- Data bit number `i` (counted from 1) of `buff`, in byte order, most
significant bit of each byte first. -/
def specDataBit (buff : List Nat) (i : Nat) : Bool :=
  (buff.getD ((i - 1) / 8) 0).testBit (7 - (i - 1) % 8)

/-- `0x64` XORed with `m_i` for the `i` in `1..m` whose data bit is 1. -/
def specAcc (buff : List Nat) (m : Nat) : Nat :=
  (List.range m).foldl
    (fun c k => if specDataBit buff (k + 1) then c ^^^ specMask (k + 1) else c) 0x64

/-- The digest of the specification over all `8 * length` data bits. -/
def specDigest (buff : List Nat) : Nat := specAcc buff (8 * buff.length)

/-! ## Observers, invariants and concrete inputs -/

/-- The buffer passes the three tests of main.cpp 264 and 267. -/
def passes (b : List Nat) : Prop :=
  Checksum 5 (b.drop 1) = b.getD 6 0 ∧ b.getD 1 0 = 0x45 ∧ b.getD 5 0 ≤ 100

instance (b : List Nat) : Decidable (passes b) := by
  unfold passes; infer_instance

/-- The events appended to the output between `s` and `s'`. -/
def emitted (s s' : State) : List Event := s'.out.drop s.out.length

/-- The state in which `add` enters `complete` when it stores the last byte. -/
def stored (s : State) (bitData : Nat) : State :=
  { s with dataByte := ((s.dataByte <<< 1) ||| bitData) % 256
           nosBits := 0
           manchester := s.manchester.set 6 (((s.dataByte <<< 1) ||| bitData) % 256)
           nosBytes := 7 }

/-- The expected level is the polarity or its complement. -/
def tempInv (s : State) : Prop := s.tempBit = s.polarity ∨ s.tempBit = s.polarity ^^^ 1

/-- The state just before the last bit of the Scenario A packet
`FD 45 4F 04 4B 0B 52` is added: six bytes stored, seven bits of `0x52`
in the accumulator. -/
def scenarioA : State :=
  { State.boot with
    firstZero := true, headerHits := 10, tempBit := 0
    dataByte := 0x29, nosBits := 7, nosBytes := 6
    manchester := [0xFD, 0x45, 0x4F, 0x04, 0x4B, 0x0B, 0] }

/-- A state at a byte boundary: bit count 0, byte index 1, stale accumulator. -/
def byteBoundary : State :=
  { State.boot with firstZero := true, headerHits := 10, dataByte := 0xA7,
                    nosBits := 0, nosBytes := 1 }

/-- Scenario B: the Scenario A packet with sensor type `0x99`, just before
its last bit is added. -/
def scenarioB : State :=
  { scenarioA with manchester := [0xFD, 0x99, 0x4F, 0x04, 0x4B, 0x0B, 0] }

/-- Scenario C: the Scenario A packet with humidity `0x65`, just before its
last bit is added. -/
def scenarioC : State :=
  { scenarioA with manchester := [0xFD, 0x45, 0x4F, 0x04, 0x4B, 0x65, 0] }

/-- The samples of a header of `n + 1` ones followed by a zero, for polarity 1:
the first one flips the expected level to 0, the zero flips it back. -/
def headerThenZero (n : Nat) : List Sample :=
  ⟨1, 1⟩ :: (List.replicate n ⟨0, 1⟩ ++ [⟨0, 0⟩])

/-- Ten ones, the first zero, two more zeros, then a read at the quarter bit
that differs from the expected level: an attempt aborted inside a byte. -/
def abortedInData : List Sample := headerThenZero 9 ++ [⟨1, 0⟩, ⟨1, 0⟩, ⟨0, 0⟩]

/-- Ten ones, the first zero and a one: the documented header tail `01`. -/
def headerThen01 : List Sample := headerThenZero 9 ++ [⟨1, 1⟩]

/-- The Scenario A packet with humidity `0x00` and the checksum `0xE2` that
goes with it, just before its last bit is added. -/
def humidityZero : State :=
  { scenarioA with dataByte := 0x71, manchester := [0xFD, 0x45, 0x4F, 0x04, 0x4B, 0x00, 0] }

/-- The Scenario A packet with bit 3 of byte 3 set (`0x0C`) and the checksum
`0x71` that goes with it, just before its last bit is added. -/
def temperatureBit11 : State :=
  { scenarioA with dataByte := 0x38, manchester := [0xFD, 0x45, 0x4F, 0x0C, 0x4B, 0x0B, 0] }

/-- Line 276: `Tvalue = (Newtemp - 720) * 0.0556`, read in exact rational
arithmetic with `0.0556 = 556/10000`. -/
def celsius (newtemp : Nat) : ℚ := ((newtemp : ℚ) - 720) * (556 / 10000)

/-- A rational rounded to two decimal places, as a number of hundredths. -/
def hundredths (q : ℚ) : Int := round (q * 100)

/-- The buffer slot that `add`, called in state `s`, writes (main.cpp 237-240):
slot `nosBytes` when the incremented bit count is 8, none otherwise. -/
def writeIndex (s : State) : Option Nat :=
  if (s.nosBits + 1) % 256 == 8 then some s.nosBytes else none

/-- Calls of `add`, one per bit, made as `lecture` makes them: only while
`nosBytes < maxBytes`. -/
def addWhile : State → List Nat → State
  | s, [] => s
  | s, b :: bs => if s.nosBytes < maxBytes then addWhile (add s b) bs else s

/-- The buffer slots written by the calls of `addWhile`, in order. -/
def writesOf : State → List Nat → List Nat
  | _, [] => []
  | s, b :: bs =>
    if s.nosBytes < maxBytes then (writeIndex s).toList ++ writesOf (add s b) bs else []

/-- Eleven ones: a state in the header phase when used as samples of `lecture`. -/
def elevenOnes : List Sample := ⟨1, 1⟩ :: List.replicate 10 ⟨0, 1⟩

/-- The eight bits of a byte, most significant first. -/
def bitsOfByte (v : Nat) : List Nat :=
  [7, 6, 5, 4, 3, 2, 1, 0].map (fun i => (v >>> i) % 2)

/-- The 50 bits appended for the Scenario A packet: the header tail `01`,
then the bytes `45 4F 04 4B 0B 52`. -/
def scenarioABits : List Nat :=
  [0, 1] ++ bitsOfByte 0x45 ++ bitsOfByte 0x4F ++ bitsOfByte 0x04 ++ bitsOfByte 0x4B ++
    bitsOfByte 0x0B ++ bitsOfByte 0x52

/-- Once `firstZero` is set, `headerHits` has reached the threshold. -/
def phaseInv (s : State) : Prop := s.firstZero = true → headerBits ≤ s.headerHits

/-- The value of `mask` in `Checksum` after `i` passes of the inner loop
(main.cpp 196 and 211-216). -/
def codeMask : Nat → Nat
  | 0 => 0x7C
  | i + 1 => rotateMask (codeMask i)

/-- The positions `k < n` (counted from 0, byte order, most significant bit
first) at which the data bits of `a` and `a'` differ. -/
def diffBits (a a' : List Nat) (n : Nat) : List Nat :=
  (List.range n).filter (fun k => specDataBit a (k + 1) != specDataBit a' (k + 1))

/-- The number of bit positions, among the 40 bits of bytes 0..4, at which
`a` and `a'` differ. -/
def hammingBits (a a' : List Nat) : Nat := (diffBits a a' 40).length

/-- The XOR of the masks that go with the positions of a list. -/
def xorMasks (l : List Nat) : Nat := l.foldl (fun acc k => acc ^^^ specMask (k + 1)) 0

/-- Is the event the line of `Serial.println(Battery)` (main.cpp 262), printed
once by every run of the validation block? -/
def Event.isBattery : Event → Bool
  | .serialBattery _ => true
  | _ => false

/-- The number of times the validation block has run, read off the output. -/
def validations (l : List Event) : Nat := (l.filter Event.isBattery).length

/-- Line samples that make `lecture`, with polarity 1 and expected level `t`,
decode the given bits: a bit whose level differs from `t` is announced by a
three-quarter read equal to `t`. -/
def samplesOf : Nat → List Nat → List Sample
  | _, [] => []
  | t, b :: bs =>
    (if (b ^^^ 1) == t then (⟨t, t ^^^ 1⟩ : Sample) else ⟨t, t⟩) :: samplesOf (b ^^^ 1) bs

/-- Samples of a whole Scenario A transmission: ten ones, then the 50 bits. -/
def scenarioASamples : List Sample := samplesOf 1 (List.replicate 10 1 ++ scenarioABits)

/-! ## Lemmas on the checksum -/

theorem rotateMask_eq_specStep : ∀ m, m < 256 → rotateMask m = specStep m := by
  decide

theorem specStep_lt : ∀ m, m < 256 → specStep m < 256 := by
  decide

theorem specMask_lt (i : Nat) : specMask i < 256 := by
  induction i with
  | zero => decide
  | succ i ih => exact specStep_lt _ ih

theorem and_0x80_ne_zero (d : Nat) : (d &&& 0x80 ≠ 0) ↔ d.testBit 7 = true := by
  have h : (0x80 : Nat) = 2 ^ 7 := by norm_num
  rw [h]
  constructor
  · intro hne
    by_contra hb
    apply hne
    apply Nat.eq_of_testBit_eq
    intro i
    simp only [Nat.testBit_and, Nat.testBit_two_pow, Nat.zero_testBit]
    by_cases hi : 7 = i
    · subst hi
      simp [hb]
    · simp [hi]
  · intro hb hz
    have := congrArg (fun x => x.testBit 7) hz
    simp only [Nat.testBit_and, Nat.testBit_two_pow_self, hb, Nat.zero_testBit] at this
    exact absurd this (by decide)

/-- The shift `data <<= 1` on a `uint8_t` moves every bit one place up. -/
theorem testBit_shl8 (d i : Nat) :
    ((d <<< 1) % 256).testBit i = (decide (0 < i ∧ i < 8) && d.testBit (i - 1)) := by
  have h : (256 : Nat) = 2 ^ 8 := by norm_num
  rw [h, Nat.testBit_mod_two_pow, Nat.testBit_shiftLeft]
  by_cases h1 : 0 < i <;> by_cases h2 : i < 8 <;> simp [h1, h2] <;> omega

theorem checksumBit_spec (k c d b : Nat) :
    checksumBit (specMask k, c, d) b =
      (specMask (k + 1), (if d.testBit 7 then c ^^^ specMask (k + 1) else c),
        (d <<< 1) % 256) := by
  unfold checksumBit
  simp only [rotateMask_eq_specStep _ (specMask_lt k), and_0x80_ne_zero]
  rfl

theorem specAcc_succ (buff : List Nat) (m : Nat) :
    specAcc buff (m + 1) =
      if specDataBit buff (m + 1) then specAcc buff m ^^^ specMask (m + 1)
      else specAcc buff m := by
  simp [specAcc, List.range_succ, List.foldl_append]

theorem specDataBit_at (buff : List Nat) (m n j : Nat) (hm : m = 8 * n + j + 1)
    (h : j < 8) : specDataBit buff m = (buff.getD n 0).testBit (7 - j) := by
  unfold specDataBit
  have h1 : (m - 1) / 8 = n := by omega
  have h2 : (m - 1) % 8 = j := by omega
  rw [h1, h2]

theorem checksumByte_spec (buff : List Nat) (n : Nat) :
    checksumByte buff (specMask (8 * n), specAcc buff (8 * n)) n =
      (specMask (8 * (n + 1)), specAcc buff (8 * (n + 1))) := by
  have e : 8 * (n + 1) = 8 * n + 1 + 1 + 1 + 1 + 1 + 1 + 1 + 1 := by omega
  rw [e]
  simp only [checksumByte, List.foldl_cons, List.foldl_nil, checksumBit_spec, testBit_shl8,
    specAcc_succ]
  rw [specDataBit_at buff (8 * n + 1) n 0 (by omega) (by omega),
    specDataBit_at buff (8 * n + 1 + 1) n 1 (by omega) (by omega),
    specDataBit_at buff (8 * n + 1 + 1 + 1) n 2 (by omega) (by omega),
    specDataBit_at buff (8 * n + 1 + 1 + 1 + 1) n 3 (by omega) (by omega),
    specDataBit_at buff (8 * n + 1 + 1 + 1 + 1 + 1) n 4 (by omega) (by omega),
    specDataBit_at buff (8 * n + 1 + 1 + 1 + 1 + 1 + 1) n 5 (by omega) (by omega),
    specDataBit_at buff (8 * n + 1 + 1 + 1 + 1 + 1 + 1 + 1) n 6 (by omega) (by omega),
    specDataBit_at buff (8 * n + 1 + 1 + 1 + 1 + 1 + 1 + 1 + 1) n 7 (by omega) (by omega)]
  simp

theorem checksum_loop_spec (buff : List Nat) (n : Nat) :
    (List.range n).foldl (checksumByte buff) (0x7C, 0x64) =
      (specMask (8 * n), specAcc buff (8 * n)) := by
  induction n with
  | zero => rfl
  | succ n ih => rw [List.range_succ, List.foldl_append, ih]; simp [checksumByte_spec]

/-! ## Lemmas on add -/

theorem add_last (s : State) (bitData : Nat) (hbits : s.nosBits = 7)
    (hbytes : s.nosBytes = 6) : add s bitData = complete (stored s bitData) := by
  simp [add, stored, hbits, hbytes, maxBytes]

theorem add_last_manchester (s : State) (bitData : Nat) (hbits : s.nosBits = 7)
    (hbytes : s.nosBytes = 6) :
    (add s bitData).manchester = s.manchester.set 6 (((s.dataByte <<< 1) ||| bitData) % 256) := by
  rw [add_last s bitData hbits hbytes]
  unfold complete
  simp only [stored]
  split_ifs <;> rfl

theorem complete_pass (s : State) (h : passes s.manchester) :
    (complete s).ChanTemp = s.ChanTemp.set (stnIdOf s.manchester) (newtempOf s.manchester) ∧
    (complete s).ChanHum = s.ChanHum.set (stnIdOf s.manchester) (newhumOf s.manchester) ∧
    (complete s).out = s.out ++
      [Event.serialBattery (batteryOf s.manchester),
       Event.serialReading s.manchester (stnIdOf s.manchester) (newtempOf s.manchester)
         (newhumOf s.manchester) (batteryOf s.manchester),
       Event.publishTemperature (stnIdOf s.manchester) (newtempOf s.manchester),
       Event.publishHumidity (stnIdOf s.manchester) (newhumOf s.manchester),
       Event.publishLowBattery (stnIdOf s.manchester) (batteryOf s.manchester)] := by
  obtain ⟨h1, h2, h3⟩ := h
  have c1 : (Checksum (maxBytes - 2) (s.manchester.drop 1) == s.manchester.getD (maxBytes - 1) 0)
      = true := by simpa [maxBytes] using h1
  have c2 : (s.manchester.getD 1 0 == 0x45 && decide (newhumOf s.manchester ≤ 100)) = true := by
    simp only [newhumOf, Bool.and_eq_true, beq_iff_eq, decide_eq_true_eq]
    exact ⟨h2, h3⟩
  unfold complete
  simp only [c1, c2, if_true]
  simp

theorem complete_fail (s : State) (h : ¬ passes s.manchester) :
    (complete s).ChanTemp = s.ChanTemp ∧ (complete s).ChanHum = s.ChanHum ∧
    (complete s).out = s.out ++ [Event.serialBattery (batteryOf s.manchester)] := by
  unfold passes at h
  unfold complete
  simp only [maxBytes, newhumOf]
  split_ifs with h1 h2
  · exfalso
    apply h
    simp only [Nat.add_one_sub_one, Nat.reduceSub, beq_iff_eq, Bool.and_eq_true,
      decide_eq_true_eq] at h1 h2
    exact ⟨h1, h2.1, h2.2⟩
  · exact ⟨rfl, rfl, rfl⟩
  · exact ⟨rfl, rfl, rfl⟩

theorem emitted_add_last (s : State) (bitData : Nat) (hbits : s.nosBits = 7)
    (hbytes : s.nosBytes = 6) :
    emitted s (add s bitData) =
      if passes (add s bitData).manchester then
        [Event.serialBattery (batteryOf (add s bitData).manchester),
         Event.serialReading (add s bitData).manchester (stnIdOf (add s bitData).manchester)
           (newtempOf (add s bitData).manchester) (newhumOf (add s bitData).manchester)
           (batteryOf (add s bitData).manchester),
         Event.publishTemperature (stnIdOf (add s bitData).manchester)
           (newtempOf (add s bitData).manchester),
         Event.publishHumidity (stnIdOf (add s bitData).manchester)
           (newhumOf (add s bitData).manchester),
         Event.publishLowBattery (stnIdOf (add s bitData).manchester)
           (batteryOf (add s bitData).manchester)]
      else [Event.serialBattery (batteryOf (add s bitData).manchester)] := by
  have hm := add_last_manchester s bitData hbits hbytes
  have hs : (stored s bitData).manchester = (add s bitData).manchester := by rw [hm]; rfl
  have ho : (stored s bitData).out = s.out := rfl
  unfold emitted
  rw [add_last s bitData hbits hbytes] at *
  split_ifs with h
  · rw [← hs] at h ⊢
    rw [(complete_pass _ h).2.2, ho]
    simp
  · rw [← hs] at h ⊢
    rw [(complete_fail _ h).2.2, ho]
    simp

/-- The whole output of the call of `add` that stores the last byte. -/
theorem out_add_last (s : State) (bitData : Nat) (hbits : s.nosBits = 7)
    (hbytes : s.nosBytes = 6) :
    (add s bitData).out =
      if passes (add s bitData).manchester then
        s.out ++
          [Event.serialBattery (batteryOf (add s bitData).manchester),
           Event.serialReading (add s bitData).manchester (stnIdOf (add s bitData).manchester)
             (newtempOf (add s bitData).manchester) (newhumOf (add s bitData).manchester)
             (batteryOf (add s bitData).manchester),
           Event.publishTemperature (stnIdOf (add s bitData).manchester)
             (newtempOf (add s bitData).manchester),
           Event.publishHumidity (stnIdOf (add s bitData).manchester)
             (newhumOf (add s bitData).manchester),
           Event.publishLowBattery (stnIdOf (add s bitData).manchester)
             (batteryOf (add s bitData).manchester)]
      else s.out ++ [Event.serialBattery (batteryOf (add s bitData).manchester)] := by
  have hm := add_last_manchester s bitData hbits hbytes
  have hs : (stored s bitData).manchester = (add s bitData).manchester := by rw [hm]; rfl
  have ho : (stored s bitData).out = s.out := rfl
  rw [add_last s bitData hbits hbytes] at *
  split_ifs with h
  · rw [← hs] at h ⊢
    rw [(complete_pass _ h).2.2, ho]
  · rw [← hs] at h ⊢
    rw [(complete_fail _ h).2.2, ho]

theorem tables_add_last (s : State) (bitData : Nat) (hbits : s.nosBits = 7)
    (hbytes : s.nosBytes = 6) :
    (passes (add s bitData).manchester →
      (add s bitData).ChanTemp =
          s.ChanTemp.set (stnIdOf (add s bitData).manchester)
            (newtempOf (add s bitData).manchester) ∧
        (add s bitData).ChanHum =
          s.ChanHum.set (stnIdOf (add s bitData).manchester)
            (newhumOf (add s bitData).manchester)) ∧
    (¬ passes (add s bitData).manchester →
      (add s bitData).ChanTemp = s.ChanTemp ∧ (add s bitData).ChanHum = s.ChanHum) := by
  have hm := add_last_manchester s bitData hbits hbytes
  have hs : (stored s bitData).manchester = (add s bitData).manchester := by rw [hm]; rfl
  rw [add_last s bitData hbits hbytes] at *
  constructor
  · intro h
    rw [← hs] at h ⊢
    exact ⟨(complete_pass _ h).1, (complete_pass _ h).2.1⟩
  · intro h
    rw [← hs] at h
    exact ⟨(complete_fail _ h).1, (complete_fail _ h).2.1⟩

theorem shl_or_bit (d x : Nat) (hx : x ≤ 1) : (d <<< 1) ||| x = 2 * d + x := by
  have h := Nat.mul_add_lt_is_or (i := 1) (b := x) (by omega) d
  rw [Nat.shiftLeft_eq]
  simp only [Nat.pow_one] at h ⊢
  rw [Nat.mul_comm d 2]
  exact h.symm

/-- A call of `add` that does not fill the accumulator only shifts the bit in. -/
theorem add_shift (s : State) (x : Nat) (hbits : s.nosBits < 7) (hbytes : s.nosBytes < 7) :
    add s x = { s with dataByte := ((s.dataByte <<< 1) ||| x) % 256
                       nosBits := s.nosBits + 1 } := by
  have h1 : (s.nosBits + 1) % 256 = s.nosBits + 1 := by omega
  have h2 : ¬ (s.nosBits = 7) := by omega
  have h3 : ¬ (s.nosBytes = 7) := by omega
  simp [add, h1, h2, h3, maxBytes]

theorem add_shift_fields (s : State) (x : Nat) (hbits : s.nosBits < 7)
    (hbytes : s.nosBytes < 7) :
    (add s x).dataByte = ((s.dataByte <<< 1) ||| x) % 256 ∧
      (add s x).nosBits = s.nosBits + 1 ∧ (add s x).nosBytes = s.nosBytes ∧
      (add s x).manchester = s.manchester := by
  rw [add_shift s x hbits hbytes]
  exact ⟨rfl, rfl, rfl, rfl⟩

/-- `complete` leaves the buffer and both counters as they are. -/
theorem complete_frame (s : State) :
    (complete s).manchester = s.manchester ∧ (complete s).nosBits = s.nosBits ∧
      (complete s).nosBytes = s.nosBytes := by
  unfold complete
  simp only
  split_ifs <;> exact ⟨rfl, rfl, rfl⟩

/-- The call of `add` that fills the accumulator stores it in the buffer. -/
theorem add_store (s : State) (x : Nat) (hbits : s.nosBits = 7) (hbytes : s.nosBytes < 7) :
    (add s x).manchester = s.manchester.set s.nosBytes (((s.dataByte <<< 1) ||| x) % 256) ∧
      (add s x).nosBits = 0 ∧ (add s x).nosBytes = s.nosBytes + 1 := by
  have h1 : (s.nosBytes + 1) % 256 = s.nosBytes + 1 := by omega
  unfold add
  by_cases h : s.nosBytes = 6
  · simp only [hbits, h, maxBytes, Nat.reduceAdd, Nat.reduceMod, beq_self_eq_true, if_true]
    exact ⟨(complete_frame _).1, (complete_frame _).2.1, (complete_frame _).2.2⟩
  · simp [hbits, h1, h, maxBytes]

/-! ## Lemmas on lecture -/

theorem run_stop (s : State) (xs : List Sample) (h : loopGuard s = false) : run s xs = s := by
  cases xs with
  | nil => rfl
  | cons x xs => simp [run, h]

theorem iteration_decoded (s : State) (x : Sample) (h : x.quarter = s.tempBit) :
    iteration s x = processBit { s with tempBit := nextTempBit s x } (bitStateOf s x) := by
  simp [iteration, h, bitStateOf]

theorem processBit_one_header (s : State) (h : s.firstZero = false) :
    processBit s 1 = { s with headerHits := (s.headerHits + 1) % 256 } := by
  simp [processBit, h]

theorem processBit_zero_short (s : State) (h : s.headerHits < 10) :
    processBit s 0 = { s with noErrors := false } := by
  simp [processBit, h, headerBits]

theorem processBit_zero_first (s : State) (hf : s.firstZero = false) (h : 10 ≤ s.headerHits) :
    processBit s 0 =
      { add { s with firstZero := true } 0 with
        out := (add { s with firstZero := true } 0).out ++ [Event.serialFirstZero] } := by
  have h' : ¬ s.headerHits < 10 := by omega
  simp [processBit, hf, h', headerBits]

/-- What a non-empty list of decoded bits says about the first pass. -/
theorem decodedBits_cons (s : State) (xs : List Sample) (b : Nat) (bs : List Nat)
    (h : decodedBits s xs = b :: bs) :
    ∃ x xs', xs = x :: xs' ∧ loopGuard s = true ∧ x.quarter = s.tempBit ∧
      bitStateOf s x = b ∧ decodedBits (iteration s x) xs' = bs ∧
      run s xs = run (iteration s x) xs' := by
  cases xs with
  | nil => simp [decodedBits] at h
  | cons x xs' =>
    unfold decodedBits at h
    split_ifs at h with hg
    simp only [Bool.and_eq_true, beq_iff_eq] at hg
    simp only [List.cons.injEq] at h
    exact ⟨x, xs', rfl, hg.1, hg.2, h.1, h.2, by simp [run, hg.1]⟩

/-- In the header phase, `n` decoded ones only move `tempBit` and `headerHits`. -/
theorem header_ones (n : Nat) : ∀ (s : State) (xs : List Sample) (rest : List Nat),
    s.firstZero = false → s.headerHits < 256 →
    decodedBits s xs = List.replicate n 1 ++ rest →
    ∃ s' ys, run s xs = run s' ys ∧ decodedBits s' ys = rest ∧
      s' = { s with tempBit := s'.tempBit, headerHits := (s.headerHits + n) % 256 } := by
  induction n with
  | zero =>
    intro s xs rest _ hh hd
    refine ⟨s, xs, rfl, by simpa using hd, ?_⟩
    have : (s.headerHits + 0) % 256 = s.headerHits := by omega
    rw [this]
  | succ n ih =>
    intro s xs rest hf hh hd
    rw [List.replicate_succ, List.cons_append] at hd
    obtain ⟨x, xs', _, _, hq, hb, hd', hr⟩ := decodedBits_cons s xs 1 _ hd
    have hit : iteration s x =
        { s with tempBit := nextTempBit s x, headerHits := (s.headerHits + 1) % 256 } := by
      rw [iteration_decoded s x hq, hb,
        processBit_one_header { s with tempBit := nextTempBit s x } hf]
    rw [hit] at hd' hr
    obtain ⟨s', ys, h1, h2, h3⟩ :=
      ih { s with tempBit := nextTempBit s x, headerHits := (s.headerHits + 1) % 256 }
        xs' rest hf (Nat.mod_lt _ (by decide)) hd'
    refine ⟨s', ys, hr.trans h1, h2, ?_⟩
    have e : ((s.headerHits + 1) % 256 + n) % 256 = (s.headerHits + (n + 1)) % 256 := by omega
    rw [h3]
    simp only [e]

/-- A zero decoded while `headerHits` is below the threshold ends the attempt:
the state is that of the start of the attempt but for `tempBit`,
`headerHits` and `noErrors`. -/
theorem header_abort (s0 : State) (xs : List Sample) (n : Nat) (rest : List Nat)
    (hn : n % 256 < 10)
    (hd : decodedBits (lectureInit s0) xs = List.replicate n 1 ++ 0 :: rest) :
    lecture s0 xs =
      { lectureInit s0 with tempBit := (lecture s0 xs).tempBit, headerHits := n % 256,
                            noErrors := false } := by
  obtain ⟨s', ys, h1, h2, h3⟩ :=
    header_ones n (lectureInit s0) xs (0 :: rest) rfl (by simp [lectureInit]) hd
  obtain ⟨y, ys', _, _, hq, hb, _, hr⟩ := decodedBits_cons s' ys 0 rest h2
  have hh : s'.headerHits = n % 256 := by
    have := congrArg State.headerHits h3
    simpa [lectureInit] using this
  have hit : iteration s' y = { s' with tempBit := nextTempBit s' y, noErrors := false } := by
    rw [iteration_decoded s' y hq, hb,
      processBit_zero_short { s' with tempBit := nextTempBit s' y } (by simp only; omega)]
  have hrun : lecture s0 xs = { s' with tempBit := nextTempBit s' y, noErrors := false } := by
    unfold lecture
    rw [h1, hr, hit, run_stop _ _ (by simp [loopGuard])]
  rw [hrun]
  simp only
  rw [h3]
  simp only [hh, Nat.zero_add]
  simp [lectureInit]

/-- When `headerHits` has reached the threshold, the zero after the ones is
the first zero: it is passed to `add` and the data phase starts. -/
theorem header_acquired (s0 : State) (xs : List Sample) (n : Nat) (rest : List Nat)
    (hn : 10 ≤ n % 256)
    (hd : decodedBits (lectureInit s0) xs = List.replicate n 1 ++ 0 :: rest) :
    ∃ s' ys, lecture s0 xs = run s' ys ∧ decodedBits s' ys = rest ∧
      s'.firstZero = true ∧ s'.noErrors = true ∧ s'.headerHits = n % 256 ∧
      s'.dataByte = ((s0.dataByte <<< 1) ||| 0) % 256 ∧ s'.nosBits = 7 ∧ s'.nosBytes = 0 ∧
      s'.manchester = s0.manchester ∧ s'.out = s0.out ++ [Event.serialFirstZero] := by
  obtain ⟨s', ys, h1, h2, h3⟩ :=
    header_ones n (lectureInit s0) xs (0 :: rest) rfl (by simp [lectureInit]) hd
  obtain ⟨y, ys', _, _, hq, hb, hd', hr⟩ := decodedBits_cons s' ys 0 rest h2
  have hh : s'.headerHits = n % 256 := by
    have := congrArg State.headerHits h3
    simpa [lectureInit] using this
  have hf : s'.firstZero = false := by rw [h3]; rfl
  have hit := iteration_decoded s' y hq
  rw [hb, processBit_zero_first { s' with tempBit := nextTempBit s' y } hf
    (by simp only; omega)] at hit
  rw [add_shift _ 0 (by rw [h3]; simp [lectureInit]) (by rw [h3]; simp [lectureInit])] at hit
  refine ⟨iteration s' y, ys', ?_, hd', ?_⟩
  · unfold lecture
    rw [h1, hr]
  · rw [hit]
    simp only
    rw [h3]
    simp [lectureInit, hh]

theorem nextTempBit_inv (s : State) (x : Sample) (h : tempInv s) :
    nextTempBit s x = s.polarity ∨ nextTempBit s x = s.polarity ^^^ 1 := by
  unfold nextTempBit
  rcases h with h | h <;> split_ifs <;> rw [h]
  · exact Or.inr rfl
  · exact Or.inl rfl
  · left
    rw [Nat.xor_assoc, Nat.xor_self, Nat.xor_zero]
  · exact Or.inr rfl

theorem bitStateOf_bit (s : State) (x : Sample) (h : tempInv s) :
    bitStateOf s x = 0 ∨ bitStateOf s x = 1 := by
  unfold bitStateOf
  rcases nextTempBit_inv s x h with h | h <;> rw [h]
  · exact Or.inl (Nat.xor_self _)
  · right
    rw [Nat.xor_comm, ← Nat.xor_assoc, Nat.xor_self, Nat.zero_xor]

/-- In the header phase, the first call of `add` comes with a zero decoded
after enough ones for `headerHits` to reach the threshold. -/
theorem header_gate : ∀ (xs : List Sample) (s : State),
    s.firstZero = false → s.nosBits = 6 → s.nosBytes = 0 → tempInv s →
    ((run s xs).firstZero = true ∨ (run s xs).nosBits ≠ 6 ∨ (run s xs).nosBytes ≠ 0) →
    ∃ n rest, decodedBits s xs = List.replicate n 1 ++ 0 :: rest ∧ 10 ≤ s.headerHits + n := by
  intro xs
  induction xs with
  | nil =>
    intro s hf hb hy _ h
    simp [run, hf, hb, hy] at h
  | cons x xs ih =>
    intro s hf hb hy hinv h
    by_cases hg : loopGuard s = true
    · by_cases hq : x.quarter = s.tempBit
      · have hrun : run s (x :: xs) = run (iteration s x) xs := by simp [run, hg]
        have hdec : decodedBits s (x :: xs) =
            bitStateOf s x :: decodedBits (iteration s x) xs := by
          simp [decodedBits, hg, hq]
        rw [hrun] at h
        rw [hdec]
        have hit := iteration_decoded s x hq
        rcases bitStateOf_bit s x hinv with h0 | h1
        · rw [h0] at hit ⊢
          by_cases hh : s.headerHits < 10
          · rw [processBit_zero_short { s with tempBit := nextTempBit s x } hh] at hit
            rw [hit, run_stop _ _ (by simp [loopGuard])] at h
            simp [hf, hb, hy] at h
          · exact ⟨0, decodedBits (iteration s x) xs, by simp, by omega⟩
        · rw [h1] at hit ⊢
          rw [processBit_one_header { s with tempBit := nextTempBit s x } hf] at hit
          rw [hit] at h ⊢
          obtain ⟨n, rest, hd, hn⟩ :=
            ih { s with tempBit := nextTempBit s x, headerHits := (s.headerHits + 1) % 256 }
              hf hb hy (nextTempBit_inv s x hinv) h
          refine ⟨n + 1, rest, ?_, ?_⟩
          · rw [hd, List.replicate_succ, List.cons_append]
          · have : (s.headerHits + 1) % 256 ≤ s.headerHits + 1 := Nat.mod_le _ _
            simp only at hn
            omega
      · have hit : iteration s x = { s with noErrors := false } := by
          simp [iteration, hq]
        have hrun : run s (x :: xs) = { s with noErrors := false } := by
          simp only [run, hg, if_true]
          rw [hit, run_stop _ _ (by simp [loopGuard])]
        rw [hrun] at h
        simp [hf, hb, hy] at h
    · rw [run_stop _ _ (by simpa using hg)] at h
      simp [hf, hb, hy] at h

/-! ## Lemmas on the conversion -/

theorem hundredths_celsius_1099 : hundredths (celsius 1099) = 2107 := by
  unfold hundredths celsius
  rw [round_eq, Int.floor_eq_iff]
  constructor <;> norm_num

/-! ## Lemmas on the control variables -/

/-- `complete` does not touch the variables of the bit decoder. -/
theorem complete_control (s : State) :
    (complete s).polarity = s.polarity ∧ (complete s).tempBit = s.tempBit ∧
      (complete s).firstZero = s.firstZero ∧ (complete s).noErrors = s.noErrors ∧
      (complete s).headerHits = s.headerHits := by
  unfold complete
  simp only
  split_ifs <;> exact ⟨rfl, rfl, rfl, rfl, rfl⟩

/-- `add` does not touch the variables of the bit decoder. -/
theorem add_control (s : State) (b : Nat) :
    (add s b).polarity = s.polarity ∧ (add s b).tempBit = s.tempBit ∧
      (add s b).firstZero = s.firstZero ∧ (add s b).noErrors = s.noErrors ∧
      (add s b).headerHits = s.headerHits := by
  unfold add
  simp only
  split_ifs
  · exact complete_control _
  · exact ⟨rfl, rfl, rfl, rfl, rfl⟩
  · exact complete_control _
  · exact ⟨rfl, rfl, rfl, rfl, rfl⟩

/-- No branch of lines 378-411 assigns `tempBit` or `polarity`. -/
theorem processBit_tempBit (s : State) (b : Nat) :
    (processBit s b).tempBit = s.tempBit ∧ (processBit s b).polarity = s.polarity := by
  unfold processBit
  split_ifs
  · exact ⟨rfl, rfl⟩
  · exact ⟨(add_control s b).2.1, (add_control s b).1⟩
  · exact ⟨rfl, rfl⟩
  · exact ⟨(add_control { s with firstZero := true } b).2.1,
      (add_control { s with firstZero := true } b).1⟩
  · exact ⟨(add_control s b).2.1, (add_control s b).1⟩

theorem iteration_tempBit (s : State) (x : Sample) (h : x.quarter = s.tempBit) :
    (iteration s x).tempBit = nextTempBit s x ∧ (iteration s x).polarity = s.polarity := by
  rw [iteration_decoded s x h]
  exact processBit_tempBit _ _

theorem xor_one_ne (t : Nat) : t ^^^ 1 ≠ t := by
  intro h
  have h' : t ^^^ 1 = t ^^^ 0 := by rw [h, Nat.xor_zero]
  exact absurd (Nat.xor_right_inj.mp h') (by decide)

/-- The counters stay in range under guarded calls of `add`. -/
theorem counters_inv : ∀ (bits : List Nat) (s : State), s.nosBits ≤ 7 → s.nosBytes ≤ 7 →
    (addWhile s bits).nosBits ≤ 7 ∧ (addWhile s bits).nosBytes ≤ 7 ∧
      ∀ i ∈ writesOf s bits, i < 7 := by
  intro bits
  induction bits with
  | nil => intro s h1 h2; exact ⟨h1, h2, by simp [writesOf]⟩
  | cons b bs ih =>
    intro s h1 h2
    by_cases hg : s.nosBytes < maxBytes
    · have hg' : s.nosBytes < 7 := hg
      simp only [addWhile, writesOf, hg, if_true]
      by_cases h7 : s.nosBits = 7
      · obtain ⟨_, hb, hn⟩ := add_store s b h7 hg'
        obtain ⟨i1, i2, i3⟩ := ih (add s b) (by omega) (by omega)
        refine ⟨i1, i2, ?_⟩
        intro i hi
        rw [List.mem_append] at hi
        rcases hi with hi | hi
        · simp only [writeIndex, h7] at hi
          simp at hi
          omega
        · exact i3 i hi
      · obtain ⟨_, hb, hn, _⟩ := add_shift_fields s b (by omega) hg'
        obtain ⟨i1, i2, i3⟩ := ih (add s b) (by omega) (by omega)
        refine ⟨i1, i2, ?_⟩
        intro i hi
        rw [List.mem_append] at hi
        rcases hi with hi | hi
        · have : ¬ ((s.nosBits + 1) % 256 = 8) := by omega
          simp [writeIndex, this] at hi
        · exact i3 i hi
    · simp only [addWhile, writesOf, hg, if_false]
      exact ⟨h1, h2, by simp⟩

/-! ## Lemmas on the two phases -/

/-- In the data phase every decoded bit goes to `add`. -/
theorem processBit_data (s : State) (b : Nat) (hf : s.firstZero = true)
    (hh : headerBits ≤ s.headerHits) : processBit s b = add s b := by
  have h' : ¬ s.headerHits < headerBits := by omega
  unfold processBit
  simp [hf, h']

theorem iteration_data (s : State) (x : Sample) (hq : x.quarter = s.tempBit)
    (hf : s.firstZero = true) (hh : headerBits ≤ s.headerHits) :
    iteration s x = add { s with tempBit := nextTempBit s x } (bitStateOf s x) := by
  rw [iteration_decoded s x hq]
  exact processBit_data _ _ hf hh

/-- What a pass of the loop does to `firstZero` and `headerHits` in the data
phase: nothing. -/
theorem iteration_data_control (s : State) (x : Sample) (hf : s.firstZero = true)
    (hh : headerBits ≤ s.headerHits) :
    (iteration s x).firstZero = true ∧ (iteration s x).headerHits = s.headerHits := by
  by_cases hq : x.quarter = s.tempBit
  · rw [iteration_data s x hq hf hh]
    have h := add_control { s with tempBit := nextTempBit s x } (bitStateOf s x)
    exact ⟨h.2.2.1.trans hf, h.2.2.2.2⟩
  · have hit : iteration s x = { s with noErrors := false } := by simp [iteration, hq]
    rw [hit]
    exact ⟨hf, rfl⟩

theorem run_data_control : ∀ (ys : List Sample) (s : State), s.firstZero = true →
    headerBits ≤ s.headerHits →
    (run s ys).firstZero = true ∧ (run s ys).headerHits = s.headerHits := by
  intro ys
  induction ys with
  | nil => intro s hf _; exact ⟨hf, rfl⟩
  | cons y ys ih =>
    intro s hf hh
    by_cases hg : loopGuard s = true
    · simp only [run, hg, if_true]
      obtain ⟨h1, h2⟩ := iteration_data_control s y hf hh
      obtain ⟨i1, i2⟩ := ih (iteration s y) h1 (by omega)
      exact ⟨i1, i2.trans h2⟩
    · rw [run_stop _ _ (by simpa using hg)]
      exact ⟨hf, rfl⟩

theorem iteration_phaseInv (s : State) (x : Sample) (h : phaseInv s) :
    phaseInv (iteration s x) := by
  by_cases hf : s.firstZero = true
  · intro _
    have := iteration_data_control s x hf (h hf)
    rw [this.2]
    exact h hf
  · have hf' : s.firstZero = false := by simpa using hf
    by_cases hq : x.quarter = s.tempBit
    · rw [iteration_decoded s x hq]
      by_cases hb : bitStateOf s x = 1
      · rw [hb, processBit_one_header { s with tempBit := nextTempBit s x } hf']
        intro hz
        simp [hf'] at hz
      · by_cases hh : s.headerHits < headerBits
        · have : processBit { s with tempBit := nextTempBit s x } (bitStateOf s x) =
              { s with tempBit := nextTempBit s x, noErrors := false } := by
            simp [processBit, hb, hh]
          rw [this]
          intro hz
          simp [hf'] at hz
        · have : processBit { s with tempBit := nextTempBit s x } (bitStateOf s x) =
              { add { s with tempBit := nextTempBit s x, firstZero := true } (bitStateOf s x) with
                out := (add { s with tempBit := nextTempBit s x, firstZero := true }
                  (bitStateOf s x)).out ++ [Event.serialFirstZero] } := by
            simp [processBit, hb, hh, hf']
          rw [this]
          intro _
          have hc := add_control { s with tempBit := nextTempBit s x, firstZero := true }
            (bitStateOf s x)
          simp only
          rw [hc.2.2.2.2]
          simp only
          omega
    · have hit : iteration s x = { s with noErrors := false } := by simp [iteration, hq]
      rw [hit]
      exact h

theorem run_phaseInv : ∀ (xs : List Sample) (s : State), phaseInv s → phaseInv (run s xs) := by
  intro xs
  induction xs with
  | nil => intro s h; exact h
  | cons x xs ih =>
    intro s h
    by_cases hg : loopGuard s = true
    · simp only [run, hg, if_true]
      exact ih _ (iteration_phaseInv s x h)
    · rw [run_stop _ _ (by simpa using hg)]
      exact h

theorem lecture_phaseInv (s0 : State) (xs : List Sample) : phaseInv (lecture s0 xs) :=
  run_phaseInv xs (lectureInit s0) (fun h => by simp [lectureInit] at h)

/-! ## Lemmas on byte 0 -/

theorem getD_succ_drop (b : List Nat) (i : Nat) : b.getD (i + 1) 0 = (b.drop 1).getD i 0 := by
  cases b with
  | nil => rfl
  | cons a t => simp

/-- The fields read by `complete` and its three tests depend on the buffer
through `drop 1` only. -/
theorem fields_of_tail (b b' : List Nat) (h : b'.drop 1 = b.drop 1) :
    stnIdOf b' = stnIdOf b ∧ newtempOf b' = newtempOf b ∧ newhumOf b' = newhumOf b ∧
      batteryOf b' = batteryOf b ∧ b'.getD 1 0 = b.getD 1 0 ∧ (passes b' ↔ passes b) := by
  have g : ∀ i, b'.getD (i + 1) 0 = b.getD (i + 1) 0 := by
    intro i
    rw [getD_succ_drop, getD_succ_drop, h]
  unfold stnIdOf newtempOf newhumOf batteryOf passes
  rw [g 0, g 2, g 3, g 4, g 5, h]
  exact ⟨rfl, rfl, rfl, rfl, rfl, Iff.rfl⟩

/-! ## Lemmas on the masks -/

theorem codeMask_eq_specMask (i : Nat) : codeMask i = specMask i := by
  induction i with
  | zero => rfl
  | succ i ih =>
    show rotateMask (codeMask i) = specStep (specMask i)
    rw [ih, rotateMask_eq_specStep _ (specMask_lt i)]

theorem codeMask_ne_zero : ∀ i, i < 40 → codeMask (i + 1) ≠ 0 := by
  decide

theorem codeMask_distinct : ∀ i, i < 40 → ∀ j, j < 40 → i < j →
    codeMask (i + 1) ≠ codeMask (j + 1) := by
  decide

theorem xorMasks_append (l : List Nat) (k : Nat) :
    xorMasks (l ++ [k]) = xorMasks l ^^^ specMask (k + 1) := by
  simp [xorMasks, List.foldl_append]

theorem diffBits_succ (a a' : List Nat) (n : Nat) :
    diffBits a a' (n + 1) =
      diffBits a a' n ++
        (if specDataBit a (n + 1) != specDataBit a' (n + 1) then [n] else []) := by
  simp [diffBits, List.range_succ, List.filter_append, List.filter_cons]

/-- The digest is linear: two digests differ by the masks of the positions at
which the data differ. -/
theorem specAcc_xor (a a' : List Nat) (n : Nat) :
    specAcc a n ^^^ specAcc a' n = xorMasks (diffBits a a' n) := by
  induction n with
  | zero =>
    show (0x64 : Nat) ^^^ 0x64 = 0
    decide
  | succ n ih =>
    rw [specAcc_succ, specAcc_succ, diffBits_succ]
    generalize specDataBit a (n + 1) = p
    generalize specDataBit a' (n + 1) = q
    cases p <;> cases q
    · show specAcc a n ^^^ specAcc a' n = xorMasks (diffBits a a' n ++ [])
      rw [List.append_nil, ih]
    · show specAcc a n ^^^ (specAcc a' n ^^^ specMask (n + 1)) =
        xorMasks (diffBits a a' n ++ [n])
      rw [xorMasks_append, ← ih, Nat.xor_assoc]
    · show (specAcc a n ^^^ specMask (n + 1)) ^^^ specAcc a' n =
        xorMasks (diffBits a a' n ++ [n])
      rw [xorMasks_append, ← ih, Nat.xor_assoc, Nat.xor_comm (specMask (n + 1)),
        ← Nat.xor_assoc]
    · show (specAcc a n ^^^ specMask (n + 1)) ^^^ (specAcc a' n ^^^ specMask (n + 1)) =
        xorMasks (diffBits a a' n ++ [])
      rw [List.append_nil, ← ih, Nat.xor_assoc, Nat.xor_comm (specAcc a' n),
        ← Nat.xor_assoc (specMask (n + 1)), Nat.xor_self, Nat.zero_xor]

theorem Checksum_five (a : List Nat) : Checksum 5 a = specAcc a 40 := by
  simp [Checksum, checksum_loop_spec]

/-- One or two differing bits among the 40 change the checksum. -/
theorem checksum_differs (a a' : List Nat)
    (h : hammingBits a a' = 1 ∨ hammingBits a a' = 2) : Checksum 5 a' ≠ Checksum 5 a := by
  intro he
  rw [Checksum_five, Checksum_five] at he
  have hx : xorMasks (diffBits a a' 40) = 0 := by
    rw [← specAcc_xor, he, Nat.xor_self]
  have hpw : (diffBits a a' 40).Pairwise (· < ·) :=
    List.Pairwise.filter _ (List.pairwise_lt_range 40)
  have hlt : ∀ k ∈ diffBits a a' 40, k < 40 := by
    intro k hk
    have := (List.mem_filter.mp hk).1
    exact List.mem_range.mp this
  unfold hammingBits at h
  rcases h with h | h
  · obtain ⟨i, hi⟩ := List.length_eq_one.mp h
    rw [hi] at hx hlt
    have hi40 := hlt i (by simp)
    have : specMask (i + 1) = 0 := by simpa [xorMasks] using hx
    rw [← codeMask_eq_specMask] at this
    exact codeMask_ne_zero i hi40 this
  · obtain ⟨i, j, hij⟩ := List.length_eq_two.mp h
    rw [hij] at hx hlt hpw
    have hi40 := hlt i (by simp)
    have hj40 := hlt j (by simp)
    have hlt' : i < j := by simpa using hpw
    have : specMask (i + 1) = specMask (j + 1) := by
      have hx' : specMask (i + 1) ^^^ specMask (j + 1) = 0 := by simpa [xorMasks] using hx
      exact Nat.xor_eq_zero.mp hx'
    rw [← codeMask_eq_specMask, ← codeMask_eq_specMask] at this
    exact codeMask_distinct i hi40 j hj40 hlt' this

/-! ## Lemmas on the data phase -/

theorem iteration_tempInv (s : State) (x : Sample) (h : tempInv s) : tempInv (iteration s x) := by
  by_cases hq : x.quarter = s.tempBit
  · obtain ⟨h1, h2⟩ := iteration_tempBit s x hq
    unfold tempInv
    rw [h1, h2]
    exact nextTempBit_inv s x h
  · have hit : iteration s x = { s with noErrors := false } := by simp [iteration, hq]
    rw [hit]
    exact h

/-- Every decoded bit is 0 or 1. -/
theorem decodedBits_bits : ∀ (xs : List Sample) (s : State), tempInv s →
    ∀ b ∈ decodedBits s xs, b = 0 ∨ b = 1 := by
  intro xs
  induction xs with
  | nil => intro s _ b hb; simp [decodedBits] at hb
  | cons x xs ih =>
    intro s hinv b hb
    unfold decodedBits at hb
    split_ifs at hb with hg
    · rcases List.mem_cons.mp hb with h | h
      · rw [h]; exact bitStateOf_bit s x hinv
      · exact ih (iteration s x) (iteration_tempInv s x hinv) b h
    · simp at hb

theorem add_shift_out (s : State) (x : Nat) (hbits : s.nosBits < 7) (hbytes : s.nosBytes < 7) :
    (add s x).out = s.out := by
  rw [add_shift s x hbits hbytes]

theorem add_store_out (s : State) (x : Nat) (hbits : s.nosBits = 7) (hbytes : s.nosBytes < 6) :
    (add s x).out = s.out := by
  have h1 : (s.nosBytes + 1) % 256 = s.nosBytes + 1 := by omega
  have h2 : ¬ s.nosBytes = 6 := by omega
  simp [add, hbits, h1, h2, maxBytes]

theorem validations_append (l l' : List Event) :
    validations (l ++ l') = validations l + validations l' := by
  simp [validations, List.filter_append]

/-- The call of `add` that completes the buffer runs the validation block once. -/
theorem add_last_validations (s : State) (x : Nat) (hbits : s.nosBits = 7)
    (hbytes : s.nosBytes = 6) : validations (add s x).out = validations s.out + 1 := by
  rw [add_last s x hbits hbytes]
  have ho : (stored s x).out = s.out := rfl
  by_cases hp : passes (stored s x).manchester
  · rw [(complete_pass _ hp).2.2, ho, validations_append]
    rfl
  · rw [(complete_fail _ hp).2.2, ho, validations_append]
    rfl

/-- One call of `add` after `m < 50` appended bits. -/
theorem add_step (s : State) (b m : Nat) (hl : s.manchester.length = 7)
    (hB : s.nosBytes = (m + 6) / 8) (hb : s.nosBits = (m + 6) % 8) (hm : m < 50) :
    (add s b).manchester.length = 7 ∧ (add s b).nosBytes = (m + 1 + 6) / 8 ∧
      (add s b).nosBits = (m + 1 + 6) % 8 ∧
      (1 ≤ s.nosBytes → (add s b).manchester.getD 0 0 = s.manchester.getD 0 0) ∧
      (m + 1 < 50 → validations (add s b).out = validations s.out) ∧
      (m + 1 = 50 → validations (add s b).out = validations s.out + 1) := by
  have hlt : s.nosBytes < 7 := by omega
  by_cases h7 : s.nosBits = 7
  · obtain ⟨e1, e2, e3⟩ := add_store s b h7 hlt
    refine ⟨by rw [e1, List.length_set]; exact hl, by omega, by omega, ?_, ?_, ?_⟩
    · intro h1
      rw [e1, List.getD_eq_getElem?_getD, List.getD_eq_getElem?_getD,
        List.getElem?_set_ne (by omega)]
    · intro h50
      rw [add_store_out s b h7 (by omega)]
    · intro h50
      exact add_last_validations s b h7 (by omega)
  · obtain ⟨_, e2, e3, e4⟩ := add_shift_fields s b (by omega) hlt
    refine ⟨by rw [e4]; exact hl, by omega, by omega, ?_, ?_, ?_⟩
    · intro _
      rw [e4]
    · intro _
      rw [add_shift_out s b (by omega) hlt]
    · intro h50
      omega

/-- The data phase, counted in appended bits: from a state reached after `m`
appended bits, the passes of the loop append the bits they decode, one call
of `add` each, and the loop is left when 50 bits have been appended. -/
theorem data_run : ∀ (ys : List Sample) (s : State) (m : Nat),
    s.firstZero = true → headerBits ≤ s.headerHits → s.manchester.length = 7 →
    s.nosBytes = (m + 6) / 8 → s.nosBits = (m + 6) % 8 → m ≤ 50 →
    m + (decodedBits s ys).length ≤ 50 ∧
      (run s ys).nosBytes = (m + (decodedBits s ys).length + 6) / 8 ∧
      (run s ys).nosBits = (m + (decodedBits s ys).length + 6) % 8 ∧
      (1 ≤ s.nosBytes → (run s ys).manchester.getD 0 0 = s.manchester.getD 0 0) ∧
      (m + (decodedBits s ys).length < 50 →
        validations (run s ys).out = validations s.out) ∧
      (m < 50 → m + (decodedBits s ys).length = 50 →
        validations (run s ys).out = validations s.out + 1) := by
  intro ys
  induction ys with
  | nil =>
    intro s m _ _ _ hB hb hm
    exact ⟨hm, hB, hb, fun _ => rfl, fun _ => rfl,
      fun h1 h2 => absurd h2 (Nat.ne_of_lt h1)⟩
  | cons y ys ih =>
    intro s m hf hh hl hB hb hm
    by_cases hg : loopGuard s = true
    · by_cases hq : y.quarter = s.tempBit
      · have hdec : decodedBits s (y :: ys) =
            bitStateOf s y :: decodedBits (iteration s y) ys := by
          simp [decodedBits, hg, hq]
        have hrun : run s (y :: ys) = run (iteration s y) ys := by simp [run, hg]
        have hit := iteration_data s y hq hf hh
        have hlt : s.nosBytes < 7 := by
          simp only [loopGuard, Bool.and_eq_true, decide_eq_true_eq, maxBytes] at hg
          exact hg.2
        have hm' : m < 50 := by omega
        obtain ⟨c1, c2⟩ := iteration_data_control s y hf hh
        obtain ⟨t1, t2, t3, t4, t5, t6⟩ :=
          add_step { s with tempBit := nextTempBit s y } (bitStateOf s y) m hl hB hb hm'
        rw [← hit] at t1 t2 t3 t4 t5 t6
        obtain ⟨i1, i2, i3, i4, i5, i6⟩ :=
          ih (iteration s y) (m + 1) c1 (by omega) t1 t2 t3 (by omega)
        rw [hdec, hrun, List.length_cons]
        have e : m + ((decodedBits (iteration s y) ys).length + 1) =
            m + 1 + (decodedBits (iteration s y) ys).length := by omega
        rw [e]
        refine ⟨i1, i2, i3, ?_, ?_, ?_⟩
        · intro h1
          have h1' : 1 ≤ (iteration s y).nosBytes := by omega
          rw [i4 h1']
          exact t4 h1
        · intro hk
          rw [i5 hk]
          exact t5 (by omega)
        · intro _ hk
          by_cases h50 : m + 1 = 50
          · have hk0 : (decodedBits (iteration s y) ys).length = 0 := by omega
            have hstop : run (iteration s y) ys = iteration s y := by
              apply run_stop
              simp only [loopGuard, Bool.and_eq_false_iff, decide_eq_false_iff_not, maxBytes]
              right
              omega
            rw [hstop]
            exact t6 h50
          · rw [i6 (by omega) hk, t5 (by omega)]
      · have hdec : decodedBits s (y :: ys) = [] := by simp [decodedBits, hq]
        have hrun : run s (y :: ys) = { s with noErrors := false } := by
          have hit : iteration s y = { s with noErrors := false } := by simp [iteration, hq]
          simp only [run, hg, if_true]
          rw [hit, run_stop _ _ (by simp [loopGuard])]
        rw [hdec, hrun]
        exact ⟨hm, hB, hb, fun _ => rfl, fun _ => rfl,
          fun h1 h2 => absurd h2 (Nat.ne_of_lt h1)⟩
    · have hdec : decodedBits s (y :: ys) = [] := by simp [decodedBits, hg]
      rw [hdec, run_stop _ _ (by simpa using hg)]
      exact ⟨hm, hB, hb, fun _ => rfl, fun _ => rfl,
        fun h1 h2 => absurd h2 (Nat.ne_of_lt h1)⟩

/-! ## Theorems -/

/-- C1: the call to `add` that stores the 7th byte (bit count 7, byte index 6)
completes the buffer `b`, which is the buffer held before with the
accumulated byte in slot 6.  It publishes if and only if
`Checksum(5, b[1..5]) = b[6]`, `b[1] = 0x45` and `b[5] <= 100`.  When the
three tests hold, the reading of `b` is recorded in `ChanTemp`/`ChanHum` at
its channel and what is emitted is the battery line, the serial dump and the
three publications of that channel's raw temperature, humidity and battery
flag.  When one of them fails, only the battery line is emitted and the
tables keep their values; in particular a buffer with `b[1] != 0x45` or with
`b[5] > 100` publishes nothing and records nothing, whatever its other bytes
are. -/
theorem add_accepts_iff (s : State) (bitData : Nat) (hbits : s.nosBits = 7)
    (hbytes : s.nosBytes = 6) :
    ((∃ e ∈ emitted s (add s bitData), e.isPublish = true) ↔
      (Checksum 5 ((add s bitData).manchester.drop 1) = (add s bitData).manchester.getD 6 0 ∧
        (add s bitData).manchester.getD 1 0 = 0x45 ∧
        (add s bitData).manchester.getD 5 0 ≤ 100)) ∧
    ((Checksum 5 ((add s bitData).manchester.drop 1) = (add s bitData).manchester.getD 6 0 ∧
        (add s bitData).manchester.getD 1 0 = 0x45 ∧
        (add s bitData).manchester.getD 5 0 ≤ 100) →
      (add s bitData).ChanTemp =
          s.ChanTemp.set (stnIdOf (add s bitData).manchester)
            (newtempOf (add s bitData).manchester) ∧
        (add s bitData).ChanHum =
          s.ChanHum.set (stnIdOf (add s bitData).manchester)
            (newhumOf (add s bitData).manchester)) ∧
    (((add s bitData).manchester.getD 1 0 ≠ 0x45 ∨ 100 < (add s bitData).manchester.getD 5 0) →
      (∀ e ∈ emitted s (add s bitData), e.isPublish = false) ∧
        (add s bitData).ChanTemp = s.ChanTemp ∧ (add s bitData).ChanHum = s.ChanHum) ∧
    (add s bitData).manchester =
      s.manchester.set 6 (((s.dataByte <<< 1) ||| bitData) % 256) ∧
    ((Checksum 5 ((add s bitData).manchester.drop 1) = (add s bitData).manchester.getD 6 0 ∧
        (add s bitData).manchester.getD 1 0 = 0x45 ∧
        (add s bitData).manchester.getD 5 0 ≤ 100) →
      (add s bitData).out = s.out ++
        [Event.serialBattery ((add s bitData).manchester.getD 3 0 >>> 7),
         Event.serialReading (add s bitData).manchester
           (((add s bitData).manchester.getD 3 0 &&& 0x70) / 16 + 1)
           (((add s bitData).manchester.getD 3 0 &&& 0x07) * 256 +
             (add s bitData).manchester.getD 4 0)
           ((add s bitData).manchester.getD 5 0)
           ((add s bitData).manchester.getD 3 0 >>> 7),
         Event.publishTemperature
           (((add s bitData).manchester.getD 3 0 &&& 0x70) / 16 + 1)
           (((add s bitData).manchester.getD 3 0 &&& 0x07) * 256 +
             (add s bitData).manchester.getD 4 0),
         Event.publishHumidity
           (((add s bitData).manchester.getD 3 0 &&& 0x70) / 16 + 1)
           ((add s bitData).manchester.getD 5 0),
         Event.publishLowBattery
           (((add s bitData).manchester.getD 3 0 &&& 0x70) / 16 + 1)
           ((add s bitData).manchester.getD 3 0 >>> 7)]) ∧
    (¬ (Checksum 5 ((add s bitData).manchester.drop 1) = (add s bitData).manchester.getD 6 0 ∧
        (add s bitData).manchester.getD 1 0 = 0x45 ∧
        (add s bitData).manchester.getD 5 0 ≤ 100) →
      (add s bitData).out =
          s.out ++ [Event.serialBattery ((add s bitData).manchester.getD 3 0 >>> 7)] ∧
        (add s bitData).ChanTemp = s.ChanTemp ∧ (add s bitData).ChanHum = s.ChanHum) := by
  have he := emitted_add_last s bitData hbits hbytes
  have ht := tables_add_last s bitData hbits hbytes
  have hm := add_last_manchester s bitData hbits hbytes
  have ho := out_add_last s bitData hbits hbytes
  refine ⟨?_, ht.1, ?_, hm, ?_, ?_⟩
  rotate_left 2
  · intro h
    have h' : passes (add s bitData).manchester := h
    rw [ho, if_pos h']
    rfl
  · intro h
    have h' : ¬ passes (add s bitData).manchester := h
    rw [ho, if_neg h']
    exact ⟨rfl, ht.2 h'⟩
  · constructor
    · rintro ⟨e, hmem, hpub⟩
      by_contra hn
      have hn' : ¬ passes (add s bitData).manchester := hn
      rw [he, if_neg hn'] at hmem
      simp only [List.mem_singleton] at hmem
      subst hmem
      simp [Event.isPublish] at hpub
    · intro h
      have h' : passes (add s bitData).manchester := h
      rw [he, if_pos h']
      exact ⟨Event.publishTemperature (stnIdOf (add s bitData).manchester)
        (newtempOf (add s bitData).manchester), by simp, rfl⟩
  · intro h
    have hn : ¬ passes (add s bitData).manchester := by
      rintro ⟨_, h2, h3⟩
      rcases h with h | h
      · exact h h2
      · omega
    refine ⟨?_, ht.2 hn⟩
    intro e hmem
    rw [he, if_neg hn] at hmem
    simp only [List.mem_singleton] at hmem
    subst hmem
    rfl

/-- Witness of C1 on the Scenario A packet: the stored buffer, the decision
and the publications. -/
theorem add_accepts_iff_witness :
    scenarioA.nosBits = 7 ∧ scenarioA.nosBytes = 6 ∧
    ((∃ e ∈ emitted scenarioA (add scenarioA 0), e.isPublish = true) ↔
      (Checksum 5 ((add scenarioA 0).manchester.drop 1) = (add scenarioA 0).manchester.getD 6 0 ∧
        (add scenarioA 0).manchester.getD 1 0 = 0x45 ∧
        (add scenarioA 0).manchester.getD 5 0 ≤ 100)) ∧
    (add scenarioA 0).manchester = [0xFD, 0x45, 0x4F, 0x04, 0x4B, 0x0B, 0x52] ∧
    (add scenarioA 0).out =
      [Event.serialBattery 0,
       Event.serialReading [0xFD, 0x45, 0x4F, 0x04, 0x4B, 0x0B, 0x52] 1 1099 11 0,
       Event.publishTemperature 1 1099, Event.publishHumidity 1 11,
       Event.publishLowBattery 1 0] :=
  have h := add_accepts_iff scenarioA 0 rfl rfl
  ⟨rfl, rfl, h.1, h.2.2.2.1, h.2.2.2.2.1 (by decide)⟩

/-- C2 (Scenario A): the checksum of `45 4F 04 4B 0B` is `0x52`; the buffer
`FD 45 4F 04 4B 0B 52` is accepted, with channel 1, raw temperature 1099,
humidity 11 and battery flag 0. -/
theorem scenarioA_accepted :
    Checksum 5 [0x45, 0x4F, 0x04, 0x4B, 0x0B] = 0x52 ∧
    (add scenarioA 0).manchester = [0xFD, 0x45, 0x4F, 0x04, 0x4B, 0x0B, 0x52] ∧
    emitted scenarioA (add scenarioA 0) =
      [Event.serialBattery 0,
       Event.serialReading [0xFD, 0x45, 0x4F, 0x04, 0x4B, 0x0B, 0x52] 1 1099 11 0,
       Event.publishTemperature 1 1099, Event.publishHumidity 1 11,
       Event.publishLowBattery 1 0] ∧
    (add scenarioA 0).ChanTemp = [0, 1099, 0, 0, 0, 0, 0, 0, 0] ∧
    (add scenarioA 0).ChanHum = [0, 11, 0, 0, 0, 0, 0, 0, 0] ∧
    stnIdOf (add scenarioA 0).manchester = 1 ∧
    newtempOf (add scenarioA 0).manchester = 1099 ∧
    newhumOf (add scenarioA 0).manchester = 11 ∧
    batteryOf (add scenarioA 0).manchester = 0 := by
  refine ⟨by decide, by decide, by decide, by decide, by decide, by decide, by decide,
    by decide, by decide⟩


/-- C3: for every byte sequence `buff`, `Checksum(length, buff)` over its full
length is the digest of the specification: `0x64` XORed with the mask `m_i`
for exactly the positions `i` (from 1, byte order, most significant bit
first) whose data bit is 1, the masks being `m_0 = 0x7C`, `m_{i+1} = step m_i`. -/
theorem Checksum_eq_specDigest (buff : List Nat) :
    Checksum buff.length buff = specDigest buff := by
  simp [Checksum, specDigest, checksum_loop_spec]

/-- C7: from bit count 0 and byte index `k < 7`, eight calls `add x1 .. add x8`
store at `manchester[k]` the byte with bits `x1 .. x8`, most significant
first, whatever the accumulator held; the other slots keep their value, the
bit count is 0 again and the byte index is `k + 1`. -/
theorem add_eight_bits (s : State) (k x1 x2 x3 x4 x5 x6 x7 x8 : Nat)
    (hbits : s.nosBits = 0) (hbytes : s.nosBytes = k) (hk : k < 7)
    (hlen : s.manchester.length = 7)
    (h1 : x1 ≤ 1) (h2 : x2 ≤ 1) (h3 : x3 ≤ 1) (h4 : x4 ≤ 1)
    (h5 : x5 ≤ 1) (h6 : x6 ≤ 1) (h7 : x7 ≤ 1) (h8 : x8 ≤ 1) :
    ([x1, x2, x3, x4, x5, x6, x7, x8].foldl add s).manchester =
        s.manchester.set k
          (128 * x1 + 64 * x2 + 32 * x3 + 16 * x4 + 8 * x5 + 4 * x6 + 2 * x7 + x8) ∧
      ([x1, x2, x3, x4, x5, x6, x7, x8].foldl add s).manchester.getD k 0 =
        128 * x1 + 64 * x2 + 32 * x3 + 16 * x4 + 8 * x5 + 4 * x6 + 2 * x7 + x8 ∧
      (∀ j, j ≠ k →
        ([x1, x2, x3, x4, x5, x6, x7, x8].foldl add s).manchester.getD j 0 =
          s.manchester.getD j 0) ∧
      ([x1, x2, x3, x4, x5, x6, x7, x8].foldl add s).nosBits = 0 ∧
      ([x1, x2, x3, x4, x5, x6, x7, x8].foldl add s).nosBytes = k + 1 := by
  simp only [List.foldl_cons, List.foldl_nil]
  obtain ⟨d1, b1, n1, m1⟩ := add_shift_fields s x1 (by omega) (by omega)
  generalize add s x1 = s1 at *
  obtain ⟨d2, b2, n2, m2⟩ := add_shift_fields s1 x2 (by omega) (by omega)
  generalize add s1 x2 = s2 at *
  obtain ⟨d3, b3, n3, m3⟩ := add_shift_fields s2 x3 (by omega) (by omega)
  generalize add s2 x3 = s3 at *
  obtain ⟨d4, b4, n4, m4⟩ := add_shift_fields s3 x4 (by omega) (by omega)
  generalize add s3 x4 = s4 at *
  obtain ⟨d5, b5, n5, m5⟩ := add_shift_fields s4 x5 (by omega) (by omega)
  generalize add s4 x5 = s5 at *
  obtain ⟨d6, b6, n6, m6⟩ := add_shift_fields s5 x6 (by omega) (by omega)
  generalize add s5 x6 = s6 at *
  obtain ⟨d7, b7, n7, m7⟩ := add_shift_fields s6 x7 (by omega) (by omega)
  generalize add s6 x7 = s7 at *
  obtain ⟨m8, b8, n8⟩ := add_store s7 x8 (by omega) (by omega)
  generalize add s7 x8 = s8 at *
  have hv : ((s7.dataByte <<< 1) ||| x8) % 256 =
      128 * x1 + 64 * x2 + 32 * x3 + 16 * x4 + 8 * x5 + 4 * x6 + 2 * x7 + x8 := by
    rw [shl_or_bit _ _ h8, d7, shl_or_bit _ _ h7, d6, shl_or_bit _ _ h6, d5,
      shl_or_bit _ _ h5, d4, shl_or_bit _ _ h4, d3, shl_or_bit _ _ h3, d2,
      shl_or_bit _ _ h2, d1, shl_or_bit _ _ h1]
    omega
  have hm : s8.manchester = s.manchester.set k
      (128 * x1 + 64 * x2 + 32 * x3 + 16 * x4 + 8 * x5 + 4 * x6 + 2 * x7 + x8) := by
    rw [m8, hv, m7, m6, m5, m4, m3, m2, m1, n7, n6, n5, n4, n3, n2, n1, hbytes]
  refine ⟨hm, ?_, ?_, b8, by omega⟩
  · rw [hm, List.getD_eq_getElem?_getD, List.getElem?_set_self (by omega)]
    rfl
  · intro j hj
    rw [hm, List.getD_eq_getElem?_getD, List.getD_eq_getElem?_getD,
      List.getElem?_set_ne (Ne.symm hj)]

/-- Witness of C7: the bits `0 1 0 0 0 1 0 1` put `0x45` in slot 1. -/
theorem add_eight_bits_witness :
    byteBoundary.nosBits = 0 ∧ byteBoundary.nosBytes = 1 ∧ 1 < 7 ∧
    byteBoundary.manchester.length = 7 ∧
    ([0, 1, 0, 0, 0, 1, 0, 1].foldl add byteBoundary).manchester = [0, 0x45, 2, 3, 0, 0, 0] ∧
    ([0, 1, 0, 0, 0, 1, 0, 1].foldl add byteBoundary).nosBits = 0 ∧
    ([0, 1, 0, 0, 0, 1, 0, 1].foldl add byteBoundary).nosBytes = 2 :=
  have h := add_eight_bits byteBoundary 1 0 1 0 0 0 1 0 1 rfl rfl (by decide) rfl
    (by decide) (by decide) (by decide) (by decide) (by decide) (by decide) (by decide)
    (by decide)
  ⟨rfl, rfl, by decide, rfl, h.1, h.2.2.2.1, h.2.2.2.2⟩

/-- C8: for every buffer of bytes, the channel `((b[3] & 0x70) / 16) + 1` is
`((b[3] & 0x70) >> 4) + 1` and lies in `1..8`, so it indexes the 9-element
tables; the raw temperature `(b[3] & 0x07) * 256 + b[4]` is
`((b[3] & 0x07) << 8) | b[4]` and lies in `0..2047`; the humidity is `b[5]`;
the battery flag is `b[3] >> 7` and is 0 or 1. -/
theorem extraction_fields (b : List Nat) (hb : ∀ x ∈ b, x < 256) :
    stnIdOf b = ((b.getD 3 0 &&& 0x70) >>> 4) + 1 ∧
      1 ≤ stnIdOf b ∧ stnIdOf b ≤ 8 ∧ stnIdOf b < 9 ∧
      newtempOf b = (((b.getD 3 0 &&& 0x07) <<< 8) ||| b.getD 4 0) ∧
      newtempOf b ≤ 2047 ∧
      newhumOf b = b.getD 5 0 ∧
      batteryOf b = b.getD 3 0 >>> 7 ∧ (batteryOf b = 0 ∨ batteryOf b = 1) := by
  have hget : ∀ i, b.getD i 0 < 256 := by
    intro i
    rw [List.getD_eq_getElem?_getD]
    cases h : b[i]? with
    | none => simp
    | some v => exact hb v (List.getElem?_mem h)
  have h3 := hget 3
  have h4 := hget 4
  have hc : b.getD 3 0 &&& 0x70 ≤ 0x70 := Nat.and_le_right
  have ht : b.getD 3 0 &&& 0x07 ≤ 0x07 := Nat.and_le_right
  have hor : ((b.getD 3 0 &&& 0x07) <<< 8) ||| b.getD 4 0
      = (b.getD 3 0 &&& 0x07) * 256 + b.getD 4 0 := by
    have h := Nat.mul_add_lt_is_or (i := 8) (b := b.getD 4 0) (by omega) (b.getD 3 0 &&& 0x07)
    rw [Nat.shiftLeft_eq, Nat.mul_comm _ (2 ^ 8), ← h]
  have hbat : b.getD 3 0 >>> 7 = b.getD 3 0 / 128 := by
    rw [Nat.shiftRight_eq_div_pow]
  have hch : (b.getD 3 0 &&& 0x70) >>> 4 = (b.getD 3 0 &&& 0x70) / 16 := by
    rw [Nat.shiftRight_eq_div_pow]
  unfold stnIdOf newtempOf newhumOf batteryOf
  rw [hor, hbat, hch]
  refine ⟨rfl, by omega, by omega, by omega, rfl, by omega, rfl, rfl, by omega⟩

/-- Witness of C8 on the Scenario A buffer. -/
theorem extraction_fields_witness :
    (∀ x ∈ [0xFD, 0x45, 0x4F, 0x04, 0x4B, 0x0B, 0x52], x < 256) ∧
    stnIdOf [0xFD, 0x45, 0x4F, 0x04, 0x4B, 0x0B, 0x52] = 1 ∧
    newtempOf [0xFD, 0x45, 0x4F, 0x04, 0x4B, 0x0B, 0x52] ≤ 2047 :=
  have h := extraction_fields [0xFD, 0x45, 0x4F, 0x04, 0x4B, 0x0B, 0x52] (by decide)
  ⟨by decide, h.1, h.2.2.2.2.2.1⟩

/-- C10 as stated fails: the Scenario B buffer is rejected (sensor type
`0x99`), yet the call of `add` that completes it writes the battery flag on
the serial line. -/
theorem silent_rejection_counterexample :
    scenarioB.nosBits = 7 ∧ scenarioB.nosBytes = 6 ∧
    (add scenarioB 0).manchester = [0xFD, 0x99, 0x4F, 0x04, 0x4B, 0x0B, 0x52] ∧
    (add scenarioB 0).manchester.getD 1 0 ≠ 0x45 ∧
    emitted scenarioB (add scenarioB 0) = [Event.serialBattery 0] ∧
    (add scenarioB 0).out ≠ scenarioB.out := by
  refine ⟨by decide, by decide, by decide, by decide, by decide, by decide⟩

/-- C10, amended: when the completed buffer fails validation (checksum
mismatch, sensor type other than `0x45`, or humidity above 100), the call of
`add` that completes it emits exactly one serial line, the battery flag
`b[3] >> 7` printed before the tests; it publishes nothing and leaves
`ChanTemp` and `ChanHum` unchanged. -/
theorem rejection_output (s : State) (bitData : Nat) (hbits : s.nosBits = 7)
    (hbytes : s.nosBytes = 6)
    (hfail : ¬ (Checksum 5 ((add s bitData).manchester.drop 1) =
          (add s bitData).manchester.getD 6 0 ∧
        (add s bitData).manchester.getD 1 0 = 0x45 ∧
        (add s bitData).manchester.getD 5 0 ≤ 100)) :
    emitted s (add s bitData) =
        [Event.serialBattery ((add s bitData).manchester.getD 3 0 >>> 7)] ∧
      (∀ e ∈ emitted s (add s bitData), e.isPublish = false) ∧
      (add s bitData).ChanTemp = s.ChanTemp ∧ (add s bitData).ChanHum = s.ChanHum := by
  have hn : ¬ passes (add s bitData).manchester := hfail
  have he := emitted_add_last s bitData hbits hbytes
  rw [if_neg hn] at he
  refine ⟨he, ?_, (tables_add_last s bitData hbits hbytes).2 hn⟩
  intro e hmem
  rw [he] at hmem
  simp only [List.mem_singleton] at hmem
  subst hmem
  rfl

/-- Witness of the amended C10 on the Scenario C buffer (humidity 101). -/
theorem rejection_output_witness :
    scenarioC.nosBits = 7 ∧ scenarioC.nosBytes = 6 ∧
    ¬ (Checksum 5 ((add scenarioC 0).manchester.drop 1) =
          (add scenarioC 0).manchester.getD 6 0 ∧
        (add scenarioC 0).manchester.getD 1 0 = 0x45 ∧
        (add scenarioC 0).manchester.getD 5 0 ≤ 100) ∧
    emitted scenarioC (add scenarioC 0) =
      [Event.serialBattery ((add scenarioC 0).manchester.getD 3 0 >>> 7)] :=
  ⟨rfl, rfl, by decide, (rejection_output scenarioC 0 rfl rfl (by decide)).1⟩

/-- C6 (Scenario D): when an attempt decodes `n < 10` ones and then a zero,
it ends at that zero with `noErrors = false` and without any call of `add`:
`firstZero` is not set, bit count 6, byte index 0, and the accumulator, the
buffer, the tables and the output are those before the attempt. -/
theorem short_header_rejected (s0 : State) (xs : List Sample) (n : Nat) (hn : n < 10)
    (hd : decodedBits (lectureInit s0) xs = List.replicate n 1 ++ [0]) :
    (lecture s0 xs).noErrors = false ∧ (lecture s0 xs).firstZero = false ∧
      (lecture s0 xs).headerHits = n ∧
      (lecture s0 xs).nosBits = 6 ∧ (lecture s0 xs).nosBytes = 0 ∧
      (lecture s0 xs).dataByte = s0.dataByte ∧
      (lecture s0 xs).manchester = s0.manchester ∧
      (lecture s0 xs).ChanTemp = s0.ChanTemp ∧ (lecture s0 xs).ChanHum = s0.ChanHum ∧
      (lecture s0 xs).out = s0.out := by
  have h := header_abort s0 xs n [] (by omega) hd
  have e : n % 256 = n := by omega
  rw [h]
  simp [lectureInit, e]

/-- Witness of C6 (Scenario D): nine ones and a zero. -/
theorem short_header_rejected_witness :
    decodedBits (lectureInit State.boot) (headerThenZero 8) = List.replicate 9 1 ++ [0] ∧
    (lecture State.boot (headerThenZero 8)).noErrors = false ∧
    (lecture State.boot (headerThenZero 8)).nosBits = 6 ∧
    (lecture State.boot (headerThenZero 8)).nosBytes = 0 :=
  have h := short_header_rejected State.boot (headerThenZero 8) 9 (by decide) (by decide)
  ⟨by decide, h.1, h.2.2.2.1, h.2.2.2.2.1⟩

/-- C5 fails on the code: `headerHits` is a `byte`, so after 256 ones it is 0
again and the zero that follows is taken for a corrupted header. -/
theorem long_header_rejected :
    decodedBits (lectureInit State.boot) (headerThenZero 255) = List.replicate 256 1 ++ [0] ∧
    (lecture State.boot (headerThenZero 255)).noErrors = false ∧
    (lecture State.boot (headerThenZero 255)).firstZero = false ∧
    (lecture State.boot (headerThenZero 255)).headerHits = 0 ∧
    (lecture State.boot (headerThenZero 255)).nosBits = 6 ∧
    (lecture State.boot (headerThenZero 255)).dataByte = 0xFF := by
  refine ⟨by decide, by decide, by decide, by decide, by decide, by decide⟩

/-- C4 (header gating): in every state reached by an attempt, if `add` has
been called (`firstZero` is set, or the bit count is not 6, or the byte index
is not 0), then the bits decoded so far in this attempt begin with at least
`headerBits = 10` ones followed by a zero. -/
theorem header_gating (s0 : State) (xs : List Sample)
    (h : (lecture s0 xs).firstZero = true ∨ (lecture s0 xs).nosBits ≠ 6 ∨
      (lecture s0 xs).nosBytes ≠ 0) :
    ∃ n rest, headerBits ≤ n ∧
      decodedBits (lectureInit s0) xs = List.replicate n 1 ++ 0 :: rest := by
  obtain ⟨n, rest, hd, hn⟩ :=
    header_gate xs (lectureInit s0) rfl rfl rfl (Or.inl rfl) h
  refine ⟨n, rest, ?_, hd⟩
  have : (lectureInit s0).headerHits = 0 := rfl
  rw [this] at hn
  simpa [headerBits] using hn

/-- Witness of C4: ten ones and a zero set `firstZero`. -/
theorem header_gating_witness :
    (lecture State.boot (headerThenZero 9)).firstZero = true ∧
    ∃ n rest, headerBits ≤ n ∧
      decodedBits (lectureInit State.boot) (headerThenZero 9) =
        List.replicate n 1 ++ 0 :: rest :=
  ⟨by decide, header_gating State.boot (headerThenZero 9) (Or.inl (by decide))⟩

/-- C9 fails on the code: `lecture` does not reset `dataByte`.  After an
attempt aborted inside a byte the accumulator still holds `0xF8`, and byte 0
of the next attempt is `0xE1` where a fresh accumulator gives `0xFD`. -/
theorem accumulator_not_reset :
    (lecture State.boot abortedInData).noErrors = false ∧
    (lectureInit (lecture State.boot abortedInData)).dataByte = 0xF8 ∧
    (lectureInit (lecture State.boot abortedInData)).nosBits = 6 ∧
    (lectureInit (lecture State.boot abortedInData)).nosBytes = 0 ∧
    (lecture (lecture State.boot abortedInData) headerThen01).manchester.getD 0 0 = 0xE1 ∧
    (lecture State.boot headerThen01).manchester.getD 0 0 = 0xFD := by
  refine ⟨by decide, by decide, by decide, by decide, by decide, by decide⟩

/-- C11 fails on the code: a completed buffer with humidity byte 0, sensor
type `0x45` and a matching checksum passes the test `Newhum <= 100` and is
published, although 0 is outside the documented range 1 to 100. -/
theorem humidity_zero_accepted :
    (add humidityZero 0).manchester = [0xFD, 0x45, 0x4F, 0x04, 0x4B, 0x00, 0xE2] ∧
    newhumOf (add humidityZero 0).manchester = 0 ∧
    emitted humidityZero (add humidityZero 0) =
      [Event.serialBattery 0,
       Event.serialReading [0xFD, 0x45, 0x4F, 0x04, 0x4B, 0x00, 0xE2] 1 1099 0 0,
       Event.publishTemperature 1 1099, Event.publishHumidity 1 0,
       Event.publishLowBattery 1 0] ∧
    (add humidityZero 0).ChanHum = [0, 0, 0, 0, 0, 0, 0, 0, 0] := by
  refine ⟨by decide, by decide, by decide, by decide⟩

/-- C12 fails on the code: the mask `B00000111` keeps three bits of byte 3,
so for byte 3 = `0x0C`, byte 4 = `0x4B` the extracted raw temperature is 1099
where the documented 12-bit field `TTTT TTTTTTTT` is 3147; the packet is
accepted and 1099 is published. -/
theorem temperature_bit11_dropped :
    (add temperatureBit11 1).manchester = [0xFD, 0x45, 0x4F, 0x0C, 0x4B, 0x0B, 0x71] ∧
    newtempOf (add temperatureBit11 1).manchester = 1099 ∧
    ((add temperatureBit11 1).manchester.getD 3 0 &&& 0x0F) * 256 +
      (add temperatureBit11 1).manchester.getD 4 0 = 3147 ∧
    (add temperatureBit11 1).Newtemp = 1099 ∧
    Event.publishTemperature 1 1099 ∈ emitted temperatureBit11 (add temperatureBit11 1) := by
  refine ⟨by decide, by decide, by decide, by decide, by decide⟩

/-- C13 as stated fails: for Scenario A (raw temperature 1099) the exact
value of `(1099 - 720) * 0.0556` does not round to 21.09. -/
theorem celsius_scenarioA_counterexample :
    newtempOf (add scenarioA 0).manchester = 1099 ∧
    hundredths (celsius (newtempOf (add scenarioA 0).manchester)) ≠ 2109 := by
  have h : newtempOf (add scenarioA 0).manchester = 1099 := by decide
  refine ⟨h, ?_⟩
  rw [h, hundredths_celsius_1099]
  decide

/-- C13, amended: for Scenario A (raw temperature 1099) the exact value of
`(1099 - 720) * 0.0556` is 21.0724, which is 21.07 when rounded to two
decimal places. -/
theorem celsius_scenarioA :
    newtempOf (add scenarioA 0).manchester = 1099 ∧
    celsius (newtempOf (add scenarioA 0).manchester) = 210724 / 10000 ∧
    hundredths (celsius (newtempOf (add scenarioA 0).manchester)) = 2107 := by
  have h : newtempOf (add scenarioA 0).manchester = 1099 := by decide
  refine ⟨h, ?_, ?_⟩
  · rw [h]
    norm_num [celsius]
  · rw [h, hundredths_celsius_1099]

/-- C14: from the counters set by `lecture` (bit count 6, byte index 0), after
any sequence of calls of `add` made while `nosBytes < maxBytes` the bit count
is in `0..7` and the byte index in `0..7`, and every slot written is below 7. -/
theorem counter_ranges (s : State) (bits : List Nat) (hbits : s.nosBits = 6)
    (hbytes : s.nosBytes = 0) :
    (addWhile s bits).nosBits ≤ 7 ∧ (addWhile s bits).nosBytes ≤ 7 ∧
      ∀ i ∈ writesOf s bits, i < 7 :=
  counters_inv bits s (by omega) (by omega)

/-- Witness of C14 on the 50 bits of Scenario A followed by two more. -/
theorem counter_ranges_witness :
    State.boot.nosBits = 6 ∧ State.boot.nosBytes = 0 ∧
    writesOf State.boot (scenarioABits ++ [1, 1]) = [0, 1, 2, 3, 4, 5, 6] ∧
    (addWhile State.boot (scenarioABits ++ [1, 1])).nosBits ≤ 7 ∧
    (addWhile State.boot (scenarioABits ++ [1, 1])).nosBytes ≤ 7 ∧
    ∀ i ∈ writesOf State.boot (scenarioABits ++ [1, 1]), i < 7 :=
  ⟨rfl, rfl, by decide, counter_ranges State.boot (scenarioABits ++ [1, 1]) rfl rfl⟩

/-- C15: a pass of the loop whose read after the quarter-bit delay differs
from `tempBit` only sets `noErrors = false`: every other variable, the buffer
and the output are as before, no bit is decoded, and the loop ends there. -/
theorem timing_violation_aborts (s : State) (x : Sample) (xs : List Sample)
    (hq : x.quarter ≠ s.tempBit) :
    iteration s x = { s with noErrors := false } ∧
      decodedBits s (x :: xs) = [] ∧
      run (iteration s x) xs = { s with noErrors := false } ∧
      (loopGuard s = true → run s (x :: xs) = { s with noErrors := false }) := by
  have hit : iteration s x = { s with noErrors := false } := by
    simp [iteration, hq]
  have hstop : run (iteration s x) xs = { s with noErrors := false } := by
    rw [hit, run_stop _ _ (by simp [loopGuard])]
  refine ⟨hit, ?_, hstop, ?_⟩
  · simp [decodedBits, hq]
  · intro hg
    simp only [run, hg, if_true]
    exact hstop

/-- Witness of C15: after ten ones and the first zero, a quarter-bit read of 0
where 1 is expected. -/
theorem timing_violation_aborts_witness :
    (⟨0, 0⟩ : Sample).quarter ≠ (lecture State.boot (headerThenZero 9)).tempBit ∧
    iteration (lecture State.boot (headerThenZero 9)) ⟨0, 0⟩ =
      { lecture State.boot (headerThenZero 9) with noErrors := false } :=
  ⟨by decide,
    (timing_violation_aborts (lecture State.boot (headerThenZero 9)) ⟨0, 0⟩ [] (by decide)).1⟩

/-- C16: in a pass of the loop without timing violation, `tempBit` is flipped
if and only if the read at three quarters of the bit equals the old
`tempBit`; the decoded bit is the new `tempBit` XOR `polarity`, and it
differs from the old `tempBit` XOR `polarity` exactly in that case, whatever
the polarity. -/
theorem bit_classification (s : State) (x : Sample) (hq : x.quarter = s.tempBit) :
    ((iteration s x).tempBit = s.tempBit ^^^ 1 ↔ x.threeQuarter = s.tempBit) ∧
      ((iteration s x).tempBit = s.tempBit ↔ x.threeQuarter ≠ s.tempBit) ∧
      bitStateOf s x = (iteration s x).tempBit ^^^ s.polarity ∧
      iteration s x =
        processBit { s with tempBit := (iteration s x).tempBit }
          ((iteration s x).tempBit ^^^ s.polarity) ∧
      (bitStateOf s x ≠ s.tempBit ^^^ s.polarity ↔ x.threeQuarter = s.tempBit) := by
  have ht := (iteration_tempBit s x hq).1
  have hb : bitStateOf s x = (iteration s x).tempBit ^^^ s.polarity := by
    rw [ht]
    rfl
  have hflip : nextTempBit s x = s.tempBit ^^^ 1 ↔ x.threeQuarter = s.tempBit := by
    unfold nextTempBit
    by_cases h : x.threeQuarter = s.tempBit
    · simp [h]
    · simp only [beq_iff_eq, h, if_false, iff_false]
      exact fun e => xor_one_ne _ e.symm
  have hkeep : nextTempBit s x = s.tempBit ↔ x.threeQuarter ≠ s.tempBit := by
    unfold nextTempBit
    by_cases h : x.threeQuarter = s.tempBit
    · simp only [beq_iff_eq, h, if_true, ne_eq, not_true_eq_false, iff_false]
      exact xor_one_ne _
    · simp [h]
  refine ⟨by rw [ht]; exact hflip, by rw [ht]; exact hkeep, hb, ?_, ?_⟩
  · rw [ht]
    exact iteration_decoded s x hq
  · rw [hb, ht, ne_eq, Nat.xor_left_inj, ← hflip]
    constructor
    · intro hne
      by_contra hn
      have := hflip.not.mp hn
      exact hne (hkeep.mpr this)
    · intro e h2
      rw [h2] at e
      exact xor_one_ne _ e.symm

/-- Witness of C16: polarity 1, expected level 1, both reads 1: the level
flips to 0 and the decoded bit is 1. -/
theorem bit_classification_witness :
    (⟨1, 1⟩ : Sample).quarter = (lectureInit State.boot).tempBit ∧
    ((iteration (lectureInit State.boot) ⟨1, 1⟩).tempBit = (lectureInit State.boot).tempBit ^^^ 1 ↔
      (⟨1, 1⟩ : Sample).threeQuarter = (lectureInit State.boot).tempBit) ∧
    bitStateOf (lectureInit State.boot) ⟨1, 1⟩ = 1 :=
  ⟨rfl, (bit_classification (lectureInit State.boot) ⟨1, 1⟩ rfl).1, by decide⟩

/-- C18: in every state `s` reached by an attempt, a pass of the loop without
timing violation does exactly one of: (i) count a header one (`headerHits++`
on a byte), leaving accumulator, counters and buffer as they are; (ii) call
`add` once, on the first zero (followed by the `!` on the serial line) or on
a data bit, leaving `headerHits` as it is; (iii) abort on a zero inside the
header, leaving both as they are.  Once `firstZero` is set, `headerHits` and
`firstZero` never change again and every decoded bit goes to `add`. -/
theorem phases_exclusive (s0 : State) (xs : List Sample) (s : State) (x : Sample)
    (hs : s = lecture s0 xs) (hq : x.quarter = s.tempBit) :
    ((bitStateOf s x = 1 ∧ s.firstZero = false ∧
        iteration s x =
          { s with tempBit := nextTempBit s x, headerHits := (s.headerHits + 1) % 256 }) ∨
      (bitStateOf s x ≠ 1 ∧ s.firstZero = false ∧ s.headerHits < headerBits ∧
        iteration s x = { s with tempBit := nextTempBit s x, noErrors := false }) ∨
      (bitStateOf s x ≠ 1 ∧ s.firstZero = false ∧ headerBits ≤ s.headerHits ∧
        iteration s x =
          { add { s with tempBit := nextTempBit s x, firstZero := true } (bitStateOf s x) with
            out := (add { s with tempBit := nextTempBit s x, firstZero := true }
              (bitStateOf s x)).out ++ [Event.serialFirstZero] } ∧
        (iteration s x).headerHits = s.headerHits) ∨
      (s.firstZero = true ∧
        iteration s x = add { s with tempBit := nextTempBit s x } (bitStateOf s x) ∧
        (iteration s x).headerHits = s.headerHits)) ∧
    (s.firstZero = true →
      ∀ ys, (run s ys).firstZero = true ∧ (run s ys).headerHits = s.headerHits) := by
  have hinv : phaseInv s := by rw [hs]; exact lecture_phaseInv s0 xs
  constructor
  · by_cases hf : s.firstZero = true
    · right; right; right
      exact ⟨hf, iteration_data s x hq hf (hinv hf), (iteration_data_control s x hf (hinv hf)).2⟩
    · have hf' : s.firstZero = false := by simpa using hf
      by_cases hb : bitStateOf s x = 1
      · left
        refine ⟨hb, hf', ?_⟩
        rw [iteration_decoded s x hq, hb,
          processBit_one_header { s with tempBit := nextTempBit s x } hf']
      · by_cases hh : s.headerHits < headerBits
        · right; left
          refine ⟨hb, hf', hh, ?_⟩
          rw [iteration_decoded s x hq]
          simp [processBit, hb, hh]
        · right; right; left
          have hit : iteration s x =
              { add { s with tempBit := nextTempBit s x, firstZero := true } (bitStateOf s x) with
                out := (add { s with tempBit := nextTempBit s x, firstZero := true }
                  (bitStateOf s x)).out ++ [Event.serialFirstZero] } := by
            rw [iteration_decoded s x hq]
            simp [processBit, hb, hh, hf']
          refine ⟨hb, hf', by omega, hit, ?_⟩
          rw [hit]
          exact (add_control { s with tempBit := nextTempBit s x, firstZero := true }
            (bitStateOf s x)).2.2.2.2
  · intro hf ys
    exact run_data_control ys s hf (hinv hf)

/-- Witness of C18: after ten ones and the first zero, a decoded zero goes
to `add`. -/
theorem phases_exclusive_witness :
    (⟨1, 0⟩ : Sample).quarter = (lecture State.boot (headerThenZero 9)).tempBit ∧
    (lecture State.boot (headerThenZero 9)).firstZero = true ∧
    ∀ ys, (run (lecture State.boot (headerThenZero 9)) ys).firstZero = true ∧
      (run (lecture State.boot (headerThenZero 9)) ys).headerHits =
        (lecture State.boot (headerThenZero 9)).headerHits :=
  ⟨by decide, by decide,
    (phases_exclusive State.boot (headerThenZero 9) (lecture State.boot (headerThenZero 9))
      ⟨1, 0⟩ rfl (by decide)).2 (by decide)⟩

/-- C20: two completed buffers that differ only in `manchester[0]` get the
same decision and the same reading: the three tests agree, channel, raw
temperature, humidity and battery flag agree, and `complete` leaves the same
tables, the same globals and the same MQTT publications. -/
theorem byte0_independence (s : State) (b' : List Nat)
    (hb : b'.drop 1 = s.manchester.drop 1) :
    ((Checksum 5 (b'.drop 1) = b'.getD 6 0 ∧ b'.getD 1 0 = 0x45 ∧ b'.getD 5 0 ≤ 100) ↔
      (Checksum 5 (s.manchester.drop 1) = s.manchester.getD 6 0 ∧
        s.manchester.getD 1 0 = 0x45 ∧ s.manchester.getD 5 0 ≤ 100)) ∧
      stnIdOf b' = stnIdOf s.manchester ∧ newtempOf b' = newtempOf s.manchester ∧
      newhumOf b' = newhumOf s.manchester ∧ batteryOf b' = batteryOf s.manchester ∧
      (complete { s with manchester := b' }).ChanTemp = (complete s).ChanTemp ∧
      (complete { s with manchester := b' }).ChanHum = (complete s).ChanHum ∧
      (complete { s with manchester := b' }).Newtemp = (complete s).Newtemp ∧
      (complete { s with manchester := b' }).Newhum = (complete s).Newhum ∧
      (complete { s with manchester := b' }).Battery = (complete s).Battery ∧
      (complete { s with manchester := b' }).out.filter Event.isPublish =
        (complete s).out.filter Event.isPublish := by
  obtain ⟨f1, f2, f3, f4, f5, f6⟩ := fields_of_tail s.manchester b' hb
  refine ⟨f6, f1, f2, f3, f4, ?_⟩
  have hN : ∀ t : State, (complete t).Newtemp = newtempOf t.manchester ∧
      (complete t).Newhum = newhumOf t.manchester ∧
      (complete t).Battery = batteryOf t.manchester := by
    intro t
    unfold complete
    simp only
    split_ifs <;> exact ⟨rfl, rfl, rfl⟩
  have n1 := hN { s with manchester := b' }
  have n2 := hN s
  by_cases hp : passes s.manchester
  · have hp' : passes ({ s with manchester := b' } : State).manchester := f6.mpr hp
    obtain ⟨a1, a2, a3⟩ := complete_pass _ hp'
    obtain ⟨c1, c2, c3⟩ := complete_pass _ hp
    rw [a1, a2, a3, c1, c2, c3, n1.1, n1.2.1, n1.2.2, n2.1, n2.2.1, n2.2.2]
    simp only [f1, f2, f3, f4]
    refine ⟨trivial, trivial, trivial, trivial, trivial, ?_⟩
    simp [List.filter_append, List.filter_cons, Event.isPublish]
  · have hp' : ¬ passes ({ s with manchester := b' } : State).manchester :=
      fun h => hp (f6.mp h)
    obtain ⟨a1, a2, a3⟩ := complete_fail _ hp'
    obtain ⟨c1, c2, c3⟩ := complete_fail _ hp
    rw [a1, a2, a3, c1, c2, c3, n1.1, n1.2.1, n1.2.2, n2.1, n2.2.1, n2.2.2]
    simp only [f2, f3, f4]
    refine ⟨trivial, trivial, trivial, trivial, trivial, ?_⟩
    simp [List.filter_append, List.filter_cons, Event.isPublish]

/-- Witness of C20: the Scenario A buffer with `0xE1` in place of `0xFD`. -/
theorem byte0_independence_witness :
    [0xE1, 0x45, 0x4F, 0x04, 0x4B, 0x0B, 0x52].drop 1 = (stored scenarioA 0).manchester.drop 1 ∧
    (complete { stored scenarioA 0 with
        manchester := [0xE1, 0x45, 0x4F, 0x04, 0x4B, 0x0B, 0x52] }).out.filter Event.isPublish =
      (complete (stored scenarioA 0)).out.filter Event.isPublish ∧
    (complete (stored scenarioA 0)).out.filter Event.isPublish =
      [Event.publishTemperature 1 1099, Event.publishHumidity 1 11,
       Event.publishLowBattery 1 0] :=
  ⟨by decide,
    (byte0_independence (stored scenarioA 0) [0xE1, 0x45, 0x4F, 0x04, 0x4B, 0x0B, 0x52]
      (by decide)).2.2.2.2.2.2.2.2.2.2,
    by decide⟩

/-- C19: the 40 masks that follow `0x7C` are non-zero and pairwise distinct;
hence two inputs that differ in exactly one or exactly two of the 40 bits of
their first five bytes have different checksums, and a completed buffer that
carries the altered bytes with the checksum byte of the original is rejected:
nothing is published and the tables keep their values. -/
theorem checksum_detects_errors (a a' : List Nat)
    (h : hammingBits a a' = 1 ∨ hammingBits a a' = 2) :
    (∀ i, i < 40 → codeMask (i + 1) ≠ 0) ∧
      (∀ i, i < 40 → ∀ j, j < 40 → i < j → codeMask (i + 1) ≠ codeMask (j + 1)) ∧
      Checksum 5 a' ≠ Checksum 5 a ∧
      ∀ s : State, s.manchester.drop 1 = a' → s.manchester.getD 6 0 = Checksum 5 a →
        (complete s).out.filter Event.isPublish = s.out.filter Event.isPublish ∧
          (complete s).ChanTemp = s.ChanTemp ∧ (complete s).ChanHum = s.ChanHum := by
  have hne := checksum_differs a a' h
  refine ⟨codeMask_ne_zero, codeMask_distinct, hne, ?_⟩
  intro s h1 h6
  have hp : ¬ passes s.manchester := by
    rintro ⟨hc, _, _⟩
    rw [h1, h6] at hc
    exact hne hc
  obtain ⟨c1, c2, c3⟩ := complete_fail s hp
  refine ⟨?_, c1, c2⟩
  rw [c3]
  simp [List.filter_append, List.filter_cons, Event.isPublish]

/-- Witness of C19: the Scenario A bytes with the last bit of the humidity
flipped. -/
theorem checksum_detects_errors_witness :
    hammingBits [0x45, 0x4F, 0x04, 0x4B, 0x0B] [0x45, 0x4F, 0x04, 0x4B, 0x0A] = 1 ∧
    Checksum 5 [0x45, 0x4F, 0x04, 0x4B, 0x0A] ≠ Checksum 5 [0x45, 0x4F, 0x04, 0x4B, 0x0B] :=
  ⟨by decide,
    (checksum_detects_errors [0x45, 0x4F, 0x04, 0x4B, 0x0B] [0x45, 0x4F, 0x04, 0x4B, 0x0A]
      (Or.inl (by decide))).2.2.1⟩

/-- C17: in an attempt that starts with a fresh accumulator (`dataByte = 0xFF`;
`lecture` sets bit count 6 and byte index 0) and acquires its header, let
the appended bits be the first zero followed by `data`.  Their number is at
most 50; the byte index after them is `(number + 6) / 8`, so byte `i` has
been stored exactly when `2 + 8 * i` bits have been appended; byte 0 is
`0xFC | x2` for the second appended bit `x2`; the buffer is complete exactly
at 50 bits, the validation block has run once then and not before, and the
loop guard is false. -/
theorem seed_offset (s0 : State) (xs : List Sample) (n : Nat) (data : List Nat)
    (hfresh : s0.dataByte = 0xFF) (hlen : s0.manchester.length = 7)
    (hn : headerBits ≤ n % 256)
    (hd : decodedBits (lectureInit s0) xs = List.replicate n 1 ++ 0 :: data) :
    data.length + 1 ≤ 50 ∧
      (lecture s0 xs).nosBytes = (data.length + 1 + 6) / 8 ∧
      (lecture s0 xs).nosBits = (data.length + 1 + 6) % 8 ∧
      (∀ i, i < 7 → (i < (lecture s0 xs).nosBytes ↔ 2 + 8 * i ≤ data.length + 1)) ∧
      (∀ x2 rest, data = x2 :: rest → (lecture s0 xs).manchester.getD 0 0 = 0xFC ||| x2) ∧
      ((lecture s0 xs).nosBytes = maxBytes ↔ data.length + 1 = 50) ∧
      (data.length + 1 < 50 → validations (lecture s0 xs).out = validations s0.out) ∧
      (data.length + 1 = 50 →
        validations (lecture s0 xs).out = validations s0.out + 1 ∧
          loopGuard (lecture s0 xs) = false) := by
  obtain ⟨s', ys, h1, h2, hfz, _, hhh, hdb, hnb, hny, hman, hout⟩ :=
    header_acquired s0 xs n data hn hd
  have hh' : headerBits ≤ s'.headerHits := by rw [hhh]; exact hn
  have hl' : s'.manchester.length = 7 := by rw [hman]; exact hlen
  have hv : validations s'.out = validations s0.out := by
    rw [hout, validations_append]
    rfl
  obtain ⟨d1, d2, d3, _, d5, d6⟩ :=
    data_run ys s' 1 hfz hh' hl' (by rw [hny]) (by rw [hnb]) (by omega)
  rw [h2] at d1 d2 d3 d5 d6
  rw [← h1] at d2 d3 d5 d6
  rw [hv] at d5 d6
  have hmax : maxBytes = 7 := rfl
  refine ⟨by omega, by omega, by omega, ?_, ?_, by omega, ?_, ?_⟩
  · intro i hi
    omega
  · intro x2 rest hdata
    rw [hdata] at h2
    obtain ⟨y, ys', _, _, hq, hb, hrest, hr⟩ := decodedBits_cons s' ys x2 rest h2
    have hit := iteration_data s' y hq hfz hh'
    rw [hb] at hit
    obtain ⟨e1, e2, e3⟩ :=
      add_store { s' with tempBit := nextTempBit s' y } x2 hnb (by simp only; omega)
    rw [← hit] at e1 e2 e3
    obtain ⟨c1, c2⟩ := iteration_data_control s' y hfz hh'
    have hl2 : (iteration s' y).manchester.length = 7 := by
      rw [e1, List.length_set]
      exact hl'
    have e3' : (iteration s' y).nosBytes = 1 := by
      rw [e3]
      simp only
      omega
    obtain ⟨_, _, _, g4, _, _⟩ :=
      data_run ys' (iteration s' y) 2 c1 (by omega) hl2 (by rw [e3']) (by rw [e2])
        (by omega)
    have hbit : x2 = 0 ∨ x2 = 1 := by
      apply decodedBits_bits xs (lectureInit s0) (Or.inl rfl) x2
      rw [hd, hdata]
      simp
    rw [h1, hr, g4 (by omega), e1]
    simp only [hny, hdb, hfresh]
    rw [List.getD_eq_getElem?_getD, List.getElem?_set_self (by omega)]
    rcases hbit with h | h <;> rw [h] <;> decide
  · intro hlt
    exact d5 (by omega)
  · intro h50
    refine ⟨d6 (by omega) (by omega), ?_⟩
    simp only [loopGuard, Bool.and_eq_false_iff, decide_eq_false_iff_not, maxBytes]
    right
    omega

/-- Witness of C17: a whole Scenario A transmission, ten ones and 50 bits;
after it byte 0 is `0xFD`, the byte index is 7 and the block has run once. -/
theorem seed_offset_witness :
    State.boot.dataByte = 0xFF ∧ State.boot.manchester.length = 7 ∧
    decodedBits (lectureInit State.boot) scenarioASamples =
      List.replicate 10 1 ++ 0 :: scenarioABits.tail ∧
    (lecture State.boot scenarioASamples).manchester =
      [0xFD, 0x45, 0x4F, 0x04, 0x4B, 0x0B, 0x52] ∧
    (lecture State.boot scenarioASamples).nosBytes = (scenarioABits.tail.length + 1 + 6) / 8 ∧
    validations (lecture State.boot scenarioASamples).out = validations State.boot.out + 1 :=
  have h := seed_offset State.boot scenarioASamples 10 scenarioABits.tail rfl rfl
    (by decide) (by decide)
  ⟨rfl, rfl, by decide, by decide, h.2.1, (h.2.2.2.2.2.2.2 (by decide)).1⟩

end F007th
